import Mathlib

/-!
Shallow embedding of the Formula-VAD optimization scripts
(src/optimize/data_demo.py and src/optimize/optimize.py).

Both scripts load a JSON run plan, inject alternate VAD machine configs
into it, call an external native simulator with the serialized plan, and
consume the simulator's JSON result.  We model Python JSON values with an
inductive `PyJson`, Python floats with `PyFloat` (an exact rational or
NaN), Python's `json.loads` with a fuel-based recursive-descent function
`json_loads` covering the fragment these scripts exchange (objects,
arrays, escape-free strings, strict JSON numbers, the `NaN` extension,
`true`/`false`/`null`), and `str.replace` with `replaceL`.  Each entry
point becomes a function from the loaded plan and the simulator (an
oracle from the serialized config to the raw result text) to the list of
configs passed to the simulator together with the script's outcome.
-/

namespace FormulaVAD

/-- A Python float as these scripts use it: NaN or an exact rational.
The scripts only form `1.0 - f_score`, so exact rationals model the
arithmetic; NaN propagates through subtraction as in IEEE. -/
inductive PyFloat where
  | nan
  | val (q : ℚ)
deriving DecidableEq

/-- Subtraction of Python floats: any NaN operand yields NaN. -/
def PyFloat.sub : PyFloat → PyFloat → PyFloat
  | .val a, .val b => .val (a - b)
  | _, _ => .nan

/-- A Python value as produced by `json.loads` on the fragment these
scripts exchange.  Strings are kept as character lists so the text-level
NaN normalization can be related to them. -/
inductive PyJson where
  | null
  | bool (b : Bool)
  | num (f : PyFloat)
  | str (s : List Char)
  | arr (xs : List PyJson)
  | obj (kvs : List (List Char × PyJson))

instance : Inhabited PyJson := ⟨.null⟩

/-- The character list of a string literal, for readable keys. -/
def chars (s : String) : List Char := s.data

/-- Map an Option-valued function over a list, failing when any element
fails (the effect of a Python list comprehension whose body can raise).
-/
def mapO {α β : Type} (f : α → Option β) : List α → Option (List β)
  | [] => some []
  | a :: t => do
    let b ← f a
    let bs ← mapO f t
    return b :: bs

/-- First binding of a key in an object's member list.  Objects built by
`json_loads` have unique keys (later duplicates overwrite), so this is
Python dict lookup. -/
def lookupKey (k : List Char) : List (List Char × PyJson) → Option PyJson
  | [] => none
  | (k', v) :: rest => if k' = k then some v else lookupKey k rest

/-- Python `d[k]` on a JSON value: only objects support string keys;
anything else raises (modelled as `none`). -/
def PyJson.get : PyJson → List Char → Option PyJson
  | .obj kvs, k => lookupKey k kvs
  | _, _ => none

/-- Python `k in d` for a parsed JSON object; non-objects never contain a
string key here (list/str membership of a string key is `False` or a
raise; the scripts only apply this to parsed result objects). -/
def PyJson.hasKey : PyJson → List Char → Bool
  | .obj kvs, k => (lookupKey k kvs).isSome
  | _, _ => false

/-- Python `d[k] = v` on a dict member list: overwrite in place if the
key is present, else append. -/
def setKey (k : List Char) (v : PyJson) : List (List Char × PyJson) → List (List Char × PyJson)
  | [] => [(k, v)]
  | (k', v') :: rest => if k' = k then (k, v) :: rest else (k', v') :: setKey k v rest

/-- Python `d[k] = v` on a JSON value: only objects are assignable. -/
def PyJson.set : PyJson → List Char → PyJson → Option PyJson
  | .obj kvs, k, v => some (.obj (setKey k v kvs))
  | _, _, _ => none

/-- Python iteration `for d in x`: lists yield elements, dicts yield
their keys (as strings), strings yield one-character strings; numbers
and the rest raise. -/
def PyJson.iter : PyJson → Option (List PyJson)
  | .arr xs => some xs
  | .obj kvs => some (kvs.map fun kv => .str kv.1)
  | .str s => some (s.map fun c => .str [c])
  | _ => none

/-- The statement `config['config']['vad_config']['alt_vad_machine_configs'] = v`
shared by both scripts, as a functional update of the loaded plan:
failure of any lookup (missing key or non-dict) models the raised
KeyError/TypeError. -/
def setAltConfigs (plan : PyJson) (v : PyJson) : Option PyJson := do
  let c1 ← plan.get (chars "config")
  let c2 ← c1.get (chars "vad_config")
  let c2' ← c2.set (chars "alt_vad_machine_configs") v
  let c1' ← c1.set (chars "vad_config") c2'
  plan.set (chars "config") c1'

/-! ### Python `str.replace` -/

/-- One left-to-right scan bounded by fuel: wherever the pattern starts,
emit the replacement and skip past the pattern; otherwise keep the
character.  This is Python's non-overlapping `str.replace`; for a
nonempty pattern, fuel equal to the input length completes the scan. -/
def replaceGo (pat rep : List Char) : List Char → Nat → List Char
  | s, 0 => s
  | [], _ + 1 => []
  | c :: t, fuel + 1 =>
    if pat <+: (c :: t) then rep ++ replaceGo pat rep ((c :: t).drop pat.length) fuel
    else c :: replaceGo pat rep t fuel

/-- Python `s.replace(pat, rep)` for a nonempty pattern. -/
def replaceL (pat rep s : List Char) : List Char := replaceGo pat rep s s.length

/-- Line 63 of src/optimize/optimize.py:
`s = s.replace('-nan', 'NaN').replace('nan', 'NaN')`. -/
def fixNaN (s : List Char) : List Char :=
  replaceL (chars "nan") (chars "NaN") (replaceL (chars "-nan") (chars "NaN") s)

/-! ### `json.loads` on the fragment the scripts exchange

Objects, arrays, escape-free strings, strict JSON numbers, Python's
`NaN` extension, and the three literals.  Escape sequences and the
`Infinity` extension are outside the fragment; input using them fails to
parse rather than misparsing. -/

def isDigitC (c : Char) : Bool := '0' ≤ c && c ≤ '9'

def isWsC (c : Char) : Bool := c = ' ' || c = '\t' || c = '\n' || c = '\r'

/-- Skip leading JSON whitespace. -/
def dropWs : List Char → List Char
  | [] => []
  | c :: t => if isWsC c then dropWs t else c :: t

/-- Longest leading run of decimal digits, with the remainder. -/
def readDigits : List Char → List Char × List Char
  | [] => ([], [])
  | c :: t =>
    if isDigitC c then
      let p := readDigits t
      (c :: p.1, p.2)
    else ([], c :: t)

/-- Integer part of a JSON number: `0`, or a nonzero digit then digits. -/
def scanIntPart : List Char → Option (List Char × List Char)
  | '0' :: t => some (['0'], t)
  | c :: t =>
    if isDigitC c then
      let p := readDigits t
      some (c :: p.1, p.2)
    else none
  | [] => none

/-- Optional fraction part: `.` then at least one digit. -/
def scanFrac : List Char → Option (List Char × List Char)
  | '.' :: t =>
    match readDigits t with
    | ([], _) => none
    | (ds, r) => some ('.' :: ds, r)
  | s => some ([], s)

/-- Optional exponent part: `e`/`E`, optional sign, at least one digit. -/
def scanExp : List Char → Option (List Char × List Char)
  | c :: t =>
    if c = 'e' ∨ c = 'E' then
      match t with
      | s :: t2 =>
        if s = '+' ∨ s = '-' then
          match readDigits t2 with
          | ([], _) => none
          | (ds, r) => some (c :: s :: ds, r)
        else
          match readDigits t with
          | ([], _) => none
          | (ds, r) => some (c :: ds, r)
      | [] => none
    else some ([], c :: t)
  | [] => some ([], [])

/-- Scan one JSON number token: optional minus, integer part, optional
fraction, optional exponent.  Returns the token and the remainder. -/
def scanNum (s : List Char) : Option (List Char × List Char) := do
  let (sgn, s1) : List Char × List Char :=
    match s with
    | '-' :: t => (['-'], t)
    | _ => ([], s)
  let (i, s2) ← scanIntPart s1
  let (f, s3) ← scanFrac s2
  let (e, s4) ← scanExp s3
  return (sgn ++ i ++ f ++ e, s4)

/-- Numeric value of a digit run. -/
def digitsToNat (ds : List Char) : Nat :=
  ds.foldl (fun a c => a * 10 + (c.toNat - '0'.toNat)) 0

/-- Exact rational value of a scanned number token, as a single `mkRat`
over integer computations (the rational-arithmetic operations are
irreducible, `mkRat` is not, so concrete parses evaluate). -/
def numValOf (tok : List Char) : ℚ :=
  let (neg, t1) : Bool × List Char :=
    match tok with
    | '-' :: t => (true, t)
    | _ => (false, tok)
  let (ip, t2) := readDigits t1
  let (fp, t3) : List Char × List Char :=
    match t2 with
    | '.' :: r => readDigits r
    | _ => ([], t2)
  let ep : Bool × Nat :=
    match t3 with
    | _ :: '+' :: r => (false, digitsToNat (readDigits r).1)
    | _ :: '-' :: r => (true, digitsToNat (readDigits r).1)
    | _ :: r => (false, digitsToNat (readDigits r).1)
    | [] => (false, 0)
  let m : Nat := (digitsToNat ip * 10 ^ fp.length + digitsToNat fp)
    * 10 ^ (if ep.1 then 0 else ep.2)
  let den : Nat := 10 ^ (fp.length + (if ep.1 then ep.2 else 0))
  mkRat (if neg then -(m : Int) else (m : Int)) den

/-- Body of a string literal after the opening quote: plain characters up
to the closing quote (escape sequences are outside the fragment). -/
def strBody : List Char → Option (List Char × List Char)
  | [] => none
  | '"' :: r => some ([], r)
  | '\\' :: _ => none
  | c :: t => do
    let (cs, r) ← strBody t
    return (c :: cs, r)

/-- Parse the elements of a nonempty array with `pv` (one `parseVal`
level) for the values: comma-separated, consuming the closing `]`. -/
def itemsGo (pv : List Char → Option (PyJson × List Char)) :
    Nat → List Char → Option (List PyJson × List Char)
  | 0, _ => none
  | n + 1, s =>
    (pv s).bind fun p =>
      match dropWs p.2 with
      | ',' :: r2 => (itemsGo pv n r2).bind fun q => some (p.1 :: q.1, q.2)
      | ']' :: r2 => some ([p.1], r2)
      | _ => none

/-- Parse the members of a nonempty object with `pv` for the values:
`"key": value` pairs, comma-separated, consuming the closing brace. -/
def membersGo (pv : List Char → Option (PyJson × List Char)) :
    Nat → List Char → Option (List (List Char × PyJson) × List Char)
  | 0, _ => none
  | n + 1, s =>
    match dropWs s with
    | '"' :: r =>
      (strBody r).bind fun kp =>
        match dropWs kp.2 with
        | ':' :: r2 =>
          (pv r2).bind fun vp =>
            match dropWs vp.2 with
            | ',' :: r4 =>
              (membersGo pv n r4).bind fun q => some ((kp.1, vp.1) :: q.1, q.2)
            | '\x7d' :: r4 => some ([(kp.1, vp.1)], r4)
            | _ => none
        | _ => none
    | _ => none

/-- Parse one JSON value (recursive descent, structural on fuel). -/
def parseVal : Nat → List Char → Option (PyJson × List Char)
  | 0, _ => none
  | fuel + 1, s =>
    match dropWs s with
    | 'n' :: 'u' :: 'l' :: 'l' :: r => some (.null, r)
    | 't' :: 'r' :: 'u' :: 'e' :: r => some (.bool true, r)
    | 'f' :: 'a' :: 'l' :: 's' :: 'e' :: r => some (.bool false, r)
    | 'N' :: 'a' :: 'N' :: r => some (.num .nan, r)
    | '"' :: r => (strBody r).bind fun p => some (.str p.1, p.2)
    | '[' :: r =>
      (match dropWs r with
       | ']' :: r2 => some (.arr [], r2)
       | r1 => (itemsGo (parseVal fuel) fuel r1).bind fun p => some (.arr p.1, p.2))
    | '\x7b' :: r =>
      (match dropWs r with
       | '\x7d' :: r2 => some (.obj [], r2)
       | r1 =>
         (membersGo (parseVal fuel) fuel r1).bind fun p =>
           some (.obj (p.1.foldl (fun acc kv => setKey kv.1 kv.2 acc) []), p.2))
    | s1 => (scanNum s1).bind fun p => some (.num (.val (numValOf p.1)), p.2)

/-- Python's `json.loads` on the modelled fragment: one value, then only
whitespace.  Duplicate object keys are resolved as Python dicts do
(later members overwrite), via the `setKey` fold in `parseVal`. -/
def json_loads (s : List Char) : Option PyJson :=
  match parseVal (s.length + 1) s with
  | some (v, r) => if dropWs r = [] then some v else none
  | none => none

/-! ### The debug entry point, src/optimize/data_demo.py -/

/-- The three alternate VAD configs hardcoded at lines 33-37. -/
def debugAltConfigs : PyJson :=
  .arr [
    .obj [(chars "speech_max_freq", .num (.val 1000))],
    .obj [(chars "speech_max_freq", .num (.val 1500))],
    .obj [(chars "speech_max_freq", .num (.val 2000))]]

/-- Outcome of the debug script. -/
inductive DebugOutcome where
  | raised
  | exitOne
  | printed (fs : List PyJson)

/-- Process exit code: a clean run exits 0; `exit(1)` and an uncaught
Python exception both exit 1. -/
def DebugOutcome.exitCode : DebugOutcome → Nat
  | .printed _ => 0
  | _ => 1

/-- The list comprehension `[d['f_score'] for d in data['alt']]`. -/
def extractFScores (data : PyJson) : Option (List PyJson) := do
  let alts ← data.get (chars "alt")
  let ds ← alts.iter
  mapO (fun d => d.get (chars "f_score")) ds

/-- The debug entry point from the loaded plan on: inject the three
hardcoded alternate configs, call the simulator once on the updated
plan, parse the raw result text, exit 1 on an `error` result, else print
the f_score list.  Returns the configs passed to the simulator, in call
order, together with the outcome; the simulator is an oracle from the
serialized plan to its raw result text. -/
def data_demo (plan : PyJson) (sim : PyJson → List Char) : List PyJson × DebugOutcome :=
  match setAltConfigs plan debugAltConfigs with
  | none => ([], .raised)
  | some config =>
    match json_loads (sim config) with
    | none => ([config], .raised)
    | some data =>
      if data.hasKey (chars "error") then ([config], .exitOne)
      else
        match extractFScores data with
        | none => ([config], .raised)
        | some fs => ([config], .printed fs)

/-! ### The optimizer entry point, src/optimize/optimize.py -/

/-- Problem dimension from FScoreProblem.__init__ (line 42). -/
def FScoreProblem.n_var : Nat := 5

/-- Number of objectives (line 43). -/
def FScoreProblem.n_obj : Nat := 1

/-- Number of constraints (line 44). -/
def FScoreProblem.n_constr : Nat := 0

/-- Lower bounds xl (line 45). -/
def FScoreProblem.xl : List ℚ := [50, 500, 21/10, 1/100, 1]

/-- Upper bounds xu (line 46). -/
def FScoreProblem.xu : List ℚ := [450, 2500, 500, 2, 200]

/-- One VAD config from one candidate row, mapping columns 0-4 as in the
loop body at lines 51-57; a row too short for the indices 0..4 raises.
-/
def rowToConf (row : List PyFloat) : Option PyJson :=
  match row with
  | a :: b :: c :: d :: e :: _ => some (.obj [
      (chars "speech_min_freq", .num a),
      (chars "speech_max_freq", .num b),
      (chars "long_term_speech_avg_sec", .num c),
      (chars "short_term_speech_avg_sec", .num d),
      (chars "speech_threshold_factor", .num e)])
  | _ => none

/-- Outcome of FScoreProblem._evaluate: the losses written to out["F"],
the explicit ValueError for an `error` result, or some other raised
exception (index, key, type or JSON decode errors). -/
inductive EvalOutcome where
  | raised
  | valueError
  | losses (f1 : List PyFloat)

/-- Coercion of one extracted score to a float, as numpy's array
construction plus float subtraction does: numbers stay, booleans become
0/1, anything else raises. -/
def scoreToFloat : PyJson → Option PyFloat
  | .num f => some f
  | .bool b => some (.val (if b then 1 else 0))
  | _ => none

/-- The per-candidate loss `1.0 - f_score` (line 69). -/
def lossOf (f : PyFloat) : PyFloat := PyFloat.sub (.val 1) f

/-- `np.array([d['f_score'] for d in data['alt']])` then `1.0 - f_score`
(lines 68-69): extract the scores, coerce them to floats, and subtract
each from 1.0. -/
def lossesOf (data : PyJson) : Option (List PyFloat) := do
  let vs ← extractFScores data
  let fs ← mapO scoreToFloat vs
  return fs.map lossOf

/-- FScoreProblem._evaluate (lines 48-72) on one batch x of candidate
rows: build one VAD config per row, inject the whole batch into the
shared plan, issue one simulator call, fix the malformed NaN tokens in
the raw result text, parse it, raise ValueError on an `error` result,
else write the per-candidate losses.  Returns the configs passed to the
simulator, in call order, and the outcome. -/
def evaluateF (plan : PyJson) (x : List (List PyFloat)) (sim : PyJson → List Char) :
    List PyJson × EvalOutcome :=
  match mapO rowToConf x with
  | none => ([], .raised)
  | some confs =>
    match setAltConfigs plan (.arr confs) with
    | none => ([], .raised)
    | some config =>
      match json_loads (fixNaN (sim config)) with
      | none => ([config], .raised)
      | some data =>
        if data.hasKey (chars "error") then ([config], .valueError)
        else
          match lossesOf data with
          | none => ([config], .raised)
          | some f1 => ([config], .losses f1)

/-! ### A sound Boolean equality test on parsed values

Used to establish concrete equalities such as `json_loads t = some v`
by computation. -/

/-- Pointwise Boolean equality of lists under `f`. -/
def listBeqBy {α : Type} (f : α → α → Bool) : List α → List α → Bool
  | [], [] => true
  | x :: xs, y :: ys => f x y && listBeqBy f xs ys
  | _, _ => false

/-- Pointwise Boolean equality of member lists under `f` for the values.
-/
def kvBeqBy (f : PyJson → PyJson → Bool) :
    List (List Char × PyJson) → List (List Char × PyJson) → Bool
  | [], [] => true
  | (k1, v1) :: ms, (k2, v2) :: ns => k1 == k2 && f v1 v2 && kvBeqBy f ms ns
  | _, _ => false

/-- Fuel-bounded structural equality on parsed values; a `true` answer
is sound at any fuel. -/
def pyBeq : Nat → PyJson → PyJson → Bool
  | 0, _, _ => false
  | fuel + 1, a, b =>
    match a, b with
    | .null, .null => true
    | .bool x, .bool y => x == y
    | .num x, .num y => x == y
    | .str x, .str y => x == y
    | .arr xs, .arr ys => listBeqBy (pyBeq fuel) xs ys
    | .obj ms, .obj ns => kvBeqBy (pyBeq fuel) ms ns
    | _, _ => false

/-- The same test on optional parsed values. -/
def optPyBeq (fuel : Nat) : Option PyJson → Option PyJson → Bool
  | some a, some b => pyBeq fuel a b
  | none, none => true
  | _, _ => false

/-! ### Derived accessors, the frame predicate, and sample data -/

/-- Lookup of `config.vad_config.alt_vad_machine_configs`. -/
def getAltConfigs (c : PyJson) : Option PyJson := do
  let c1 ← c.get (chars "config")
  let c2 ← c1.get (chars "vad_config")
  c2.get (chars "alt_vad_machine_configs")

/-- The mutated config differs from the loaded plan only at
`config.vad_config.alt_vad_machine_configs`: lookups of every other key
at each of the three levels are unchanged. -/
def framePreserved (plan config : PyJson) : Prop :=
  (∀ k, k ≠ chars "config" → config.get k = plan.get k) ∧
  (∀ k, k ≠ chars "vad_config" →
    (config.get (chars "config")).bind (fun c => c.get k)
      = (plan.get (chars "config")).bind (fun c => c.get k)) ∧
  (∀ k, k ≠ chars "alt_vad_machine_configs" →
    ((config.get (chars "config")).bind (fun c => c.get (chars "vad_config"))).bind
        (fun c => c.get k)
      = ((plan.get (chars "config")).bind (fun c => c.get (chars "vad_config"))).bind
        (fun c => c.get k))

/-- The minimal plan of the spec's test scenario. -/
def samplePlan : PyJson :=
  .obj [(chars "config", .obj [(chars "vad_config", .obj [])])]

/-- `samplePlan` after the debug script's config injection. -/
def sampleDebugConfig : PyJson :=
  .obj [(chars "config", .obj [(chars "vad_config",
    .obj [(chars "alt_vad_machine_configs", debugAltConfigs)])])]

/-- A stub simulator returning three f_scores 0.5, 0.8, 0.2. -/
def sampleSim3 : PyJson → List Char := fun _ =>
  chars "\x7b\"alt\":[\x7b\"f_score\":0.5\x7d,\x7b\"f_score\":0.8\x7d,\x7b\"f_score\":0.2\x7d]\x7d"

/-- The parse of `sampleSim3`'s answer. -/
def sampleData3 : PyJson :=
  .obj [(chars "alt", .arr [
    .obj [(chars "f_score", .num (.val (mkRat 1 2)))],
    .obj [(chars "f_score", .num (.val (mkRat 4 5)))],
    .obj [(chars "f_score", .num (.val (mkRat 1 5)))]])]

/-- A stub simulator reporting a simulation failure. -/
def sampleSimErr : PyJson → List Char := fun _ =>
  chars "\x7b\"error\":\"boom\"\x7d"

/-- A stub simulator whose first score is the malformed token `nan`. -/
def sampleSimNaN : PyJson → List Char := fun _ =>
  chars "\x7b\"alt\":[\x7b\"f_score\":nan\x7d,\x7b\"f_score\":0.5\x7d]\x7d"

/-- A one-row sample batch for the optimizer. -/
def sampleBatch : List (List PyFloat) :=
  [[.val 100, .val 1000, .val 3, .val 1, .val 2]]

/-- The VAD config built from `sampleBatch`'s single row. -/
def sampleConf : PyJson :=
  .obj [
    (chars "speech_min_freq", .num (.val 100)),
    (chars "speech_max_freq", .num (.val 1000)),
    (chars "long_term_speech_avg_sec", .num (.val 3)),
    (chars "short_term_speech_avg_sec", .num (.val 1)),
    (chars "speech_threshold_factor", .num (.val 2))]

/-- `samplePlan` with `sampleBatch`'s configs injected. -/
def sampleOptConfig : PyJson :=
  .obj [(chars "config", .obj [(chars "vad_config",
    .obj [(chars "alt_vad_machine_configs", .arr [sampleConf])])])]

/-! ### Raw simulator result texts, for the NaN normalization claims

The simulator is an external native library, not part of this
repository; only its result format is known here.  Modelled from the
spec: a simulation result text is a JSON object with either an `error`
string or an `alt` list of per-alternative result objects carrying named
fields such as `f_score`; numbers may be emitted as the malformed tokens
`nan` / `-nan`, which the standard JSON parser cannot consume. -/

/-- A raw number in the result text: one of the malformed NaN tokens, or
a JSON decimal written sign, integer digits, fraction, exponent. -/
inductive RawNum where
  | rnan
  | rnegnan
  | rdec (neg : Bool) (ip fp es : List Char)

instance : Inhabited RawNum := ⟨.rnan⟩

/-- The token text of a raw number. -/
def renderNum : RawNum → List Char
  | .rnan => chars "nan"
  | .rnegnan => chars "-nan"
  | .rdec neg ip fp es => (if neg then ['-'] else []) ++ (ip ++ (fp ++ es))

/-- One named field of a result entry: a number token or a string. -/
inductive RawField where
  | fnum (n : RawNum)
  | fstr (s : List Char)

instance : Inhabited RawField := ⟨.fnum .rnan⟩

/-- One result entry: its named fields in order. -/
abbrev RawEntry := List (List Char × RawField)

/-- A raw result: an error object or an `alt` list of entries. -/
inductive RawResult where
  | rerror (msg : List Char)
  | ralt (entries : List RawEntry)

instance : Inhabited RawResult := ⟨.rerror []⟩

/-- Render one field with `fk` mapping string text and `fn` mapping
number tokens; the raw text is the instance `fk := id, fn := renderNum`.
-/
def renderFieldW (fk : List Char → List Char) (fn : RawNum → List Char) :
    RawField → List Char
  | .fnum n => fn n
  | .fstr s => '"' :: (fk s ++ ['"'])

/-- Render one `"key": value` member. -/
def renderMemberW (fk : List Char → List Char) (fn : RawNum → List Char)
    (kv : List Char × RawField) : List Char :=
  '"' :: (fk kv.1 ++ '"' :: ':' :: renderFieldW fk fn kv.2)

/-- Render an entry's members, comma-separated. -/
def renderMembersW (fk : List Char → List Char) (fn : RawNum → List Char) :
    RawEntry → List Char
  | [] => []
  | [kv] => renderMemberW fk fn kv
  | kv :: rest => renderMemberW fk fn kv ++ ',' :: renderMembersW fk fn rest

/-- Render one entry as an object. -/
def renderEntryW (fk : List Char → List Char) (fn : RawNum → List Char)
    (e : RawEntry) : List Char :=
  '\x7b' :: (renderMembersW fk fn e ++ ['\x7d'])

/-- Render the `alt` entries, comma-separated. -/
def renderEntriesW (fk : List Char → List Char) (fn : RawNum → List Char) :
    List RawEntry → List Char
  | [] => []
  | [e] => renderEntryW fk fn e
  | e :: rest => renderEntryW fk fn e ++ ',' :: renderEntriesW fk fn rest

/-- Render a whole result text. -/
def renderResultW (fk : List Char → List Char) (fn : RawNum → List Char) :
    RawResult → List Char
  | .rerror msg => renderEntryW fk fn [(chars "error", .fstr msg)]
  | .ralt es =>
    '\x7b' :: ('"' :: (chars "alt" ++ '"' :: ':' ::
      ('[' :: (renderEntriesW fk fn es ++ ']' :: ['\x7d']))))

/-- The raw text the simulator emits for a result. -/
def renderResult : RawResult → List Char := renderResultW id renderNum

/-- A raw number token after the two replaces: both malformed tokens
become `NaN`; well-formed decimals contain no `n` and are untouched. -/
def fixNum : RawNum → List Char
  | .rnan => chars "NaN"
  | .rnegnan => chars "NaN"
  | n => renderNum n

/-- A character that needs no escaping inside a JSON string literal. -/
def strCharOK (c : Char) : Bool := c != '"' && c != '\\'

/-- Strict JSON integer part: `0`, or a nonzero digit then digits. -/
def isIntTok : List Char → Bool
  | [] => false
  | c :: ds => if c = '0' then ds.isEmpty else isDigitC c && ds.all isDigitC

/-- Optional fraction: empty, or `.` then at least one digit. -/
def isFracTok : List Char → Bool
  | [] => true
  | c :: ds => c = '.' && !ds.isEmpty && ds.all isDigitC

/-- Optional exponent: empty, or `e`/`E`, optional sign, digits. -/
def isExpTok : List Char → Bool
  | [] => true
  | [_] => false
  | c :: sn :: ds =>
    (c == 'e' || c == 'E') &&
      (if sn == '+' || sn == '-' then !ds.isEmpty && ds.all isDigitC
       else isDigitC sn && ds.all isDigitC)

/-- Well-formed raw number. -/
def numWF : RawNum → Bool
  | .rnan => true
  | .rnegnan => true
  | .rdec _ ip fp es => isIntTok ip && isFracTok fp && isExpTok es

/-- Well-formed raw field. -/
def fieldWF : RawField → Bool
  | .fnum n => numWF n
  | .fstr s => s.all strCharOK

/-- No duplicates among a list of keys. -/
def keyNodup : List (List Char) → Bool
  | [] => true
  | k :: rest => !(rest.contains k) && keyNodup rest

/-- Well-formed entry: every key and field well formed, and the keys
still distinct after normalization (Python dicts would merge them
otherwise). -/
def entryWF (e : RawEntry) : Bool :=
  e.all (fun kv => kv.1.all strCharOK && fieldWF kv.2) &&
  keyNodup (e.map fun kv => fixNaN kv.1)

/-- Well-formed raw result. -/
def resultWF : RawResult → Bool
  | .rerror msg => msg.all strCharOK
  | .ralt es => es.all entryWF

/-- The float the parse of the normalized text yields for a raw number:
NaN for both malformed tokens, the token's value otherwise. -/
def interpNum : RawNum → PyFloat
  | .rnan => .nan
  | .rnegnan => .nan
  | .rdec neg ip fp es => .val (numValOf (renderNum (.rdec neg ip fp es)))

/-- The parsed value of a normalized field: the blind replace also
rewrote string contents. -/
def interpField : RawField → PyJson
  | .fnum n => .num (interpNum n)
  | .fstr s => .str (fixNaN s)

/-- The parsed object of a normalized entry (keys also rewritten). -/
def interpEntry (e : RawEntry) : PyJson :=
  .obj (e.map fun kv => (fixNaN kv.1, interpField kv.2))

/-- The parsed value of a whole normalized result text. -/
def interpResult : RawResult → PyJson
  | .rerror msg => .obj [(chars "error", .str (fixNaN msg))]
  | .ralt es => .obj [(chars "alt", .arr (es.map interpEntry))]

/-! ### Helper lemmas -/

theorem lookup_setKey_self (k : List Char) (v : PyJson) (kvs : List (List Char × PyJson)) :
    lookupKey k (setKey k v kvs) = some v := by
  induction kvs with
  | nil => simp [setKey, lookupKey]
  | cons kv rest ih =>
    obtain ⟨k0, v0⟩ := kv
    by_cases h : k0 = k
    · simp [setKey, h, lookupKey]
    · simp [setKey, h, lookupKey, ih]

theorem lookup_setKey_ne (k k' : List Char) (v : PyJson)
    (kvs : List (List Char × PyJson)) (h : k' ≠ k) :
    lookupKey k' (setKey k v kvs) = lookupKey k' kvs := by
  induction kvs with
  | nil => simp [setKey, lookupKey, Ne.symm h]
  | cons kv rest ih =>
    obtain ⟨k0, v0⟩ := kv
    by_cases h0 : k0 = k
    · subst h0
      simp [setKey, lookupKey, Ne.symm h]
    · simp [setKey, h0, lookupKey, ih]

/-- Structure forced on the plan by a successful config injection, and
the exact shape of the result. -/
theorem setAltConfigs_eq (plan v config : PyJson)
    (h : setAltConfigs plan v = some config) :
    ∃ m0 m1 m2,
      plan = .obj m0 ∧
      lookupKey (chars "config") m0 = some (.obj m1) ∧
      lookupKey (chars "vad_config") m1 = some (.obj m2) ∧
      config = .obj (setKey (chars "config")
        (.obj (setKey (chars "vad_config")
          (.obj (setKey (chars "alt_vad_machine_configs") v m2)) m1)) m0) := by
  cases plan with
  | obj m0 =>
    cases h1 : lookupKey (chars "config") m0 with
    | none => simp [setAltConfigs, PyJson.get, h1] at h
    | some c1 =>
      cases c1 with
      | obj m1 =>
        cases h2 : lookupKey (chars "vad_config") m1 with
        | none => simp [setAltConfigs, PyJson.get, h1, h2] at h
        | some c2 =>
          cases c2 with
          | obj m2 =>
            refine ⟨m0, m1, m2, rfl, h1, h2, ?_⟩
            simp [setAltConfigs, PyJson.get, h1, h2, PyJson.set] at h
            exact h.symm
          | null => simp [setAltConfigs, PyJson.get, h1, h2, PyJson.set] at h
          | bool b => simp [setAltConfigs, PyJson.get, h1, h2, PyJson.set] at h
          | num f => simp [setAltConfigs, PyJson.get, h1, h2, PyJson.set] at h
          | str s => simp [setAltConfigs, PyJson.get, h1, h2, PyJson.set] at h
          | arr xs => simp [setAltConfigs, PyJson.get, h1, h2, PyJson.set] at h
      | null => simp [setAltConfigs, PyJson.get, h1] at h
      | bool b => simp [setAltConfigs, PyJson.get, h1] at h
      | num f => simp [setAltConfigs, PyJson.get, h1] at h
      | str s => simp [setAltConfigs, PyJson.get, h1] at h
      | arr xs => simp [setAltConfigs, PyJson.get, h1] at h
  | null => simp [setAltConfigs, PyJson.get] at h
  | bool b => simp [setAltConfigs, PyJson.get] at h
  | num f => simp [setAltConfigs, PyJson.get] at h
  | str s => simp [setAltConfigs, PyJson.get] at h
  | arr xs => simp [setAltConfigs, PyJson.get] at h

theorem getAlt_setAlt (plan v config : PyJson) (h : setAltConfigs plan v = some config) :
    getAltConfigs config = some v := by
  obtain ⟨m0, m1, m2, hp, h1, h2, hc⟩ := setAltConfigs_eq plan v config h
  subst hc
  simp [getAltConfigs, PyJson.get, lookup_setKey_self]

theorem framePreserved_setAlt (plan v config : PyJson)
    (h : setAltConfigs plan v = some config) : framePreserved plan config := by
  obtain ⟨m0, m1, m2, hp, h1, h2, hc⟩ := setAltConfigs_eq plan v config h
  subst hp; subst hc
  refine ⟨?_, ?_, ?_⟩
  · intro k hk
    simp [PyJson.get, lookup_setKey_ne _ _ _ _ hk]
  · intro k hk
    simp [PyJson.get, lookup_setKey_self, h1, lookup_setKey_ne _ _ _ _ hk]
  · intro k hk
    simp [PyJson.get, lookup_setKey_self, h1, h2, lookup_setKey_ne _ _ _ _ hk]

/-- A successful `mapO` maps index by index. -/
theorem mapO_getElem {α β : Type} (f : α → Option β) :
    ∀ (l : List α) (l' : List β), mapO f l = some l' →
      l'.length = l.length ∧ ∀ i : Nat, l'[i]? = (l[i]?).bind f := by
  intro l
  induction l with
  | nil =>
    intro l' h
    simp only [mapO, Option.some.injEq] at h
    subst h
    simp
  | cons a t ih =>
    intro l' h
    cases hfa : f a with
    | none => simp [mapO, hfa] at h
    | some b =>
      cases hmt : mapO f t with
      | none => simp [mapO, hfa, hmt] at h
      | some bs =>
        simp only [mapO, hfa, hmt] at h
        simp at h
        subst h
        obtain ⟨hlen, hget⟩ := ih bs hmt
        refine ⟨by simp [hlen], ?_⟩
        intro i
        cases i with
        | zero => simp [hfa]
        | succ j => simpa using hget j

/-- The debug script issues exactly one simulator call once the config
injection succeeds. -/
theorem data_demo_calls (plan config : PyJson) (sim : PyJson → List Char)
    (h : setAltConfigs plan debugAltConfigs = some config) :
    (data_demo plan sim).1 = [config] := by
  simp only [data_demo, h]
  cases json_loads (sim config) with
  | none => rfl
  | some data =>
    by_cases he : data.hasKey (chars "error")
    · simp [he]
    · simp only [he, Bool.false_eq_true, if_false]
      cases extractFScores data <;> rfl

/-- The optimizer's evaluation issues exactly one simulator call per
batch once the configs are built and injected. -/
theorem evaluateF_calls (plan config : PyJson) (x : List (List PyFloat))
    (confs : List PyJson) (sim : PyJson → List Char)
    (hrows : mapO rowToConf x = some confs)
    (h : setAltConfigs plan (.arr confs) = some config) :
    (evaluateF plan x sim).1 = [config] := by
  simp only [evaluateF, hrows, h]
  cases json_loads (fixNaN (sim config)) with
  | none => rfl
  | some data =>
    by_cases he : data.hasKey (chars "error")
    · simp [he]
    · simp only [he, Bool.false_eq_true, if_false]
      cases lossesOf data <;> rfl

/-- Scores that are already numbers coerce to themselves. -/
theorem mapO_scoreToFloat_num (fs : List PyFloat) :
    mapO scoreToFloat (fs.map PyJson.num) = some fs := by
  induction fs with
  | nil => rfl
  | cons f t ih => simp [mapO, scoreToFloat, ih]

theorem listBeqBy_eq {α : Type} (f : α → α → Bool)
    (hf : ∀ x y, f x y = true → x = y) :
    ∀ xs ys, listBeqBy f xs ys = true → xs = ys
  | [], [], _ => rfl
  | x :: xs, y :: ys, h => by
    simp only [listBeqBy, Bool.and_eq_true] at h
    rw [hf x y h.1, listBeqBy_eq f hf xs ys h.2]
  | [], _ :: _, h => by simp [listBeqBy] at h
  | _ :: _, [], h => by simp [listBeqBy] at h

theorem kvBeqBy_eq (f : PyJson → PyJson → Bool)
    (hf : ∀ x y, f x y = true → x = y) :
    ∀ ms ns, kvBeqBy f ms ns = true → ms = ns
  | [], [], _ => rfl
  | (k1, v1) :: ms, (k2, v2) :: ns, h => by
    simp only [kvBeqBy, Bool.and_eq_true] at h
    rw [show k1 = k2 from by simpa using h.1.1, hf v1 v2 h.1.2,
      kvBeqBy_eq f hf ms ns h.2]
  | [], _ :: _, h => by simp [kvBeqBy] at h
  | _ :: _, [], h => by simp [kvBeqBy] at h

/-- A `true` answer from `pyBeq` is a real equality. -/
theorem pyBeq_eq : ∀ (fuel : Nat) (a b : PyJson), pyBeq fuel a b = true → a = b
  | 0, _, _, h => by simp [pyBeq] at h
  | fuel + 1, a, b, h => by
    cases a <;> cases b <;> simp only [pyBeq, Bool.false_eq_true] at h
    case null.null => rfl
    case bool.bool x y => exact congrArg PyJson.bool (by simpa using h)
    case num.num x y => exact congrArg PyJson.num (eq_of_beq h)
    case str.str x y => exact congrArg PyJson.str (by simpa using h)
    case arr.arr xs ys =>
      exact congrArg PyJson.arr (listBeqBy_eq _ (pyBeq_eq fuel) xs ys h)
    case obj.obj ms ns =>
      exact congrArg PyJson.obj (kvBeqBy_eq _ (pyBeq_eq fuel) ms ns h)

/-- A `true` answer from `optPyBeq` is a real equality. -/
theorem optPyBeq_eq (fuel : Nat) :
    ∀ a b : Option PyJson, optPyBeq fuel a b = true → a = b
  | none, none, _ => rfl
  | some x, some y, h => by rw [pyBeq_eq fuel x y h]
  | none, some _, h => by simp [optPyBeq] at h
  | some _, none, h => by simp [optPyBeq] at h

/-! ### Properties of the replace scan -/

theorem replaceGo_congr (pat rep : List Char) (hp : pat ≠ []) :
    ∀ (n : Nat) (s : List Char) (f1 f2 : Nat), s.length ≤ n → s.length ≤ f1 →
      s.length ≤ f2 → replaceGo pat rep s f1 = replaceGo pat rep s f2 := by
  intro n
  induction n with
  | zero =>
    intro s f1 f2 hn h1 h2
    have hs : s = [] := List.length_eq_zero.mp (Nat.le_zero.mp hn)
    subst hs
    cases f1 <;> cases f2 <;> rfl
  | succ n ih =>
    intro s f1 f2 hn h1 h2
    cases s with
    | nil => cases f1 <;> cases f2 <;> rfl
    | cons c t =>
      have hp1 : 1 ≤ pat.length := by
        cases pat with
        | nil => exact absurd rfl hp
        | cons _ _ => simp
      cases f1 with
      | zero => simp at h1
      | succ g1 =>
        cases f2 with
        | zero => simp at h2
        | succ g2 =>
          simp only [List.length_cons, Nat.succ_le_succ_iff] at hn h1 h2
          simp only [replaceGo]
          by_cases hpre : pat <+: (c :: t)
          · rw [if_pos hpre, if_pos hpre]
            have hd : ((c :: t).drop pat.length).length ≤ n := by
              simp only [List.length_drop, List.length_cons]
              omega
            have hd1 : ((c :: t).drop pat.length).length ≤ g1 := by
              simp only [List.length_drop, List.length_cons]
              omega
            have hd2 : ((c :: t).drop pat.length).length ≤ g2 := by
              simp only [List.length_drop, List.length_cons]
              omega
            rw [ih _ g1 g2 hd hd1 hd2]
          · rw [if_neg hpre, if_neg hpre, ih t g1 g2 hn h1 h2]

theorem replaceL_cons_not (pat rep : List Char) (c : Char) (t : List Char)
    (h : ¬ pat <+: (c :: t)) :
    replaceL pat rep (c :: t) = c :: replaceL pat rep t := by
  simp only [replaceL, List.length_cons, replaceGo, if_neg h]

theorem replaceL_pos (pat rep : List Char) (c : Char) (t : List Char)
    (hp : pat ≠ []) (h : pat <+: (c :: t)) :
    replaceL pat rep (c :: t) = rep ++ replaceL pat rep ((c :: t).drop pat.length) := by
  have hp1 : 1 ≤ pat.length := by
    cases pat with
    | nil => exact absurd rfl hp
    | cons _ _ => simp
  simp only [replaceL, List.length_cons, replaceGo, if_pos h]
  congr 1
  refine replaceGo_congr pat rep hp ((c :: t).drop pat.length).length _ _ _ le_rfl ?_ le_rfl
  simp only [List.length_drop, List.length_cons]
  omega

theorem not_prefix_head (pat : List Char) (c : Char) (t : List Char)
    (hp : pat ≠ []) (h : ∀ p ∈ pat, p ≠ c) : ¬ pat <+: (c :: t) := by
  intro hpre
  cases pat with
  | nil => exact hp rfl
  | cons q qs =>
    obtain ⟨r, hr⟩ := hpre
    simp only [List.cons_append] at hr
    injection hr with h1 h2
    exact h q (by simp) h1

theorem replaceL_append (pat rep b : List Char) (hp : pat ≠ [])
    (hb : ∀ p ∈ pat, b.head? ≠ some p) :
    ∀ (n : Nat) (a : List Char), a.length ≤ n →
      replaceL pat rep (a ++ b) = replaceL pat rep a ++ replaceL pat rep b := by
  intro n
  induction n with
  | zero =>
    intro a hn
    have ha : a = [] := List.length_eq_zero.mp (Nat.le_zero.mp hn)
    subst ha
    simp [replaceL, replaceGo]
  | succ n ih =>
    intro a hn
    cases a with
    | nil => simp [replaceL, replaceGo]
    | cons c t =>
      have hp1 : 1 ≤ pat.length := by
        cases pat with
        | nil => exact absurd rfl hp
        | cons _ _ => simp
      simp only [List.length_cons, Nat.succ_le_succ_iff] at hn
      by_cases hpre : pat <+: (c :: (t ++ b))
      · by_cases hlen : pat.length ≤ (c :: t).length
        · have hpa : pat <+: (c :: t) := by
            have h1 : pat = ((c :: t) ++ b).take pat.length := by
              have := hpre
              rw [List.prefix_iff_eq_take] at this
              simpa using this
            have h2 : ((c :: t) ++ b).take pat.length = (c :: t).take pat.length :=
              List.take_append_of_le_length hlen
            rw [h1, h2]
            exact List.take_prefix _ _
          have step1 : replaceL pat rep ((c :: t) ++ b)
              = rep ++ replaceL pat rep (((c :: t) ++ b).drop pat.length) := by
            simpa using replaceL_pos pat rep c (t ++ b) hp (by simpa using hpre)
          have hdrop : ((c :: t) ++ b).drop pat.length = (c :: t).drop pat.length ++ b :=
            List.drop_append_of_le_length hlen
          have hdl : ((c :: t).drop pat.length).length ≤ n := by
            simp only [List.length_drop, List.length_cons]
            omega
          rw [step1, hdrop, ih _ hdl, replaceL_pos pat rep c t hp hpa,
            List.append_assoc]
        · exfalso
          obtain ⟨r, hr⟩ := hpre
          have hblen : (c :: t).length < pat.length := Nat.lt_of_not_le hlen
          have hlt : (c :: t).length < ((c :: t) ++ b).length := by
            have : pat.length ≤ (pat ++ r).length := by simp
            rw [hr] at this
            simp only [List.cons_append] at this ⊢
            omega
          have hb0 : b ≠ [] := by
            intro hbe
            subst hbe
            simp at hlt
          have e1 : ((c :: t) ++ b)[(c :: t).length]? = b[0]? := by
            rw [List.getElem?_append_right le_rfl]
            simp
          have e2 : (pat ++ r)[(c :: t).length]? = pat[(c :: t).length]? :=
            List.getElem?_append_left hblen
          have e3 : (c :: (t ++ b) : List Char) = (c :: t) ++ b := by simp
          have e4 : pat[(c :: t).length]? = b[0]? := by
            rw [← e2, hr, e3, e1]
          have e5 : ∃ p, pat[(c :: t).length]? = some p := by
            refine ⟨pat[(c :: t).length], ?_⟩
            exact List.getElem?_eq_getElem hblen
          obtain ⟨p, hpv⟩ := e5
          have hpmem : p ∈ pat := by
            have := List.getElem?_mem hpv
            exact this
          have : b.head? = some p := by
            rw [List.head?_eq_getElem?, ← e4, hpv]
          exact hb p hpmem this
      · have hpa : ¬ pat <+: (c :: t) := by
          intro hx
          exact hpre (by simpa using hx.trans (List.prefix_append (c :: t) b))
        have e3 : (c :: t) ++ b = c :: (t ++ b) := by simp
        rw [e3, replaceL_cons_not pat rep c (t ++ b) hpre,
          replaceL_cons_not pat rep c t hpa, ih t hn]
        simp

theorem replaceL_id_of_not_mem (pat rep s : List Char) (x : Char)
    (hx : x ∈ pat) (hs : x ∉ s) : replaceL pat rep s = s := by
  induction s with
  | nil => rfl
  | cons c t ih =>
    have hnp : ¬ pat <+: (c :: t) := fun hpre => hs (hpre.subset hx)
    rw [replaceL_cons_not _ _ _ _ hnp, ih (fun h => hs (List.mem_cons_of_mem _ h))]

theorem mem_of_mem_replaceGo (pat rep : List Char) :
    ∀ (fuel : Nat) (s : List Char) (c : Char),
      c ∈ replaceGo pat rep s fuel → c ∈ s ∨ c ∈ rep := by
  intro fuel
  induction fuel with
  | zero =>
    intro s c h
    exact Or.inl (by simpa [replaceGo] using h)
  | succ n ih =>
    intro s c h
    cases s with
    | nil => simp [replaceGo] at h
    | cons c0 t =>
      simp only [replaceGo] at h
      by_cases hpre : pat <+: (c0 :: t)
      · rw [if_pos hpre] at h
        rcases List.mem_append.mp h with h1 | h2
        · exact Or.inr h1
        · rcases ih _ c h2 with h3 | h4
          · exact Or.inl (List.drop_subset _ _ h3)
          · exact Or.inr h4
      · rw [if_neg hpre] at h
        rcases List.mem_cons.mp h with h1 | h2
        · exact Or.inl (h1 ▸ List.mem_cons_self _ _)
        · rcases ih _ c h2 with h3 | h4
          · exact Or.inl (List.mem_cons_of_mem _ h3)
          · exact Or.inr h4

theorem mem_of_mem_replaceL (pat rep s : List Char) (c : Char)
    (h : c ∈ replaceL pat rep s) : c ∈ s ∨ c ∈ rep :=
  mem_of_mem_replaceGo pat rep _ s c h

theorem strOK_fixNaN (s : List Char) (h : s.all strCharOK = true) :
    (fixNaN s).all strCharOK = true := by
  rw [List.all_eq_true] at h ⊢
  intro c hc
  have hNaN : ∀ x ∈ chars "NaN", strCharOK x = true := by decide
  rcases mem_of_mem_replaceL _ _ _ _ hc with h1 | h2
  · rcases mem_of_mem_replaceL _ _ _ _ h1 with h3 | h4
    · exact h c h3
    · exact hNaN c h4
  · exact hNaN c h2

/-! ### One replace pass distributes over the rendered result -/

/-- The structural characters of the rendered result text. -/
def structChar (c : Char) : Bool :=
  c == '\x7b' || c == '\x7d' || c == '[' || c == ']' || c == ',' || c == ':' || c == '"'

/-- Patterns whose replacement distributes over the render: nonempty,
containing `n`, avoiding all structural characters.  Both `nan` and
`-nan` qualify. -/
def patOK (pat : List Char) : Prop :=
  pat ≠ [] ∧ 'n' ∈ pat ∧ ∀ c ∈ pat, structChar c = false

theorem patOK_never_starts (pat : List Char) (h : patOK pat) (c : Char)
    (hc : structChar c = true) (t : List Char) : ¬ pat <+: (c :: t) := by
  refine not_prefix_head pat c t h.1 ?_
  intro p hp heq
  have hf := h.2.2 p hp
  rw [heq, hc] at hf
  simp at hf

theorem patOK_headSafe (pat : List Char) (h : patOK pat) (c : Char)
    (hc : structChar c = true) (r : List Char) :
    ∀ p ∈ pat, (c :: r).head? ≠ some p := by
  intro p hp heq
  simp only [List.head?_cons, Option.some.injEq] at heq
  have hf := h.2.2 p hp
  rw [← heq, hc] at hf
  simp at hf

/-- A `headSafe` remainder: empty, or led by a character outside the
pattern. -/
theorem replaceL_struct_cons (pat rep : List Char) (h : patOK pat) (c : Char)
    (hc : structChar c = true) (t : List Char) :
    replaceL pat rep (c :: t) = c :: replaceL pat rep t :=
  replaceL_cons_not _ _ _ _ (patOK_never_starts pat h c hc t)

theorem replaceL_append_of_headSafe (pat rep : List Char) (h : patOK pat)
    (a rest : List Char) (hrest : ∀ p ∈ pat, rest.head? ≠ some p) :
    replaceL pat rep (a ++ rest) = replaceL pat rep a ++ replaceL pat rep rest :=
  replaceL_append pat rep rest h.1 hrest a.length a le_rfl

theorem replace_renderFieldW (pat rep : List Char) (h : patOK pat)
    (fk : List Char → List Char) (fn : RawNum → List Char) (v : RawField)
    (rest : List Char) (hrest : ∀ p ∈ pat, rest.head? ≠ some p) :
    replaceL pat rep (renderFieldW fk fn v ++ rest)
      = renderFieldW (fun s => replaceL pat rep (fk s))
          (fun m => replaceL pat rep (fn m)) v ++ replaceL pat rep rest := by
  cases v with
  | fnum m => exact replaceL_append_of_headSafe pat rep h (fn m) rest hrest
  | fstr s =>
    have e1 : renderFieldW fk fn (.fstr s) ++ rest
        = '"' :: (fk s ++ '"' :: rest) := by
      simp [renderFieldW]
    rw [e1, replaceL_struct_cons pat rep h '"' (by decide) _,
      replaceL_append_of_headSafe pat rep h (fk s) ('"' :: rest)
        (patOK_headSafe pat h '"' (by decide) rest),
      replaceL_struct_cons pat rep h '"' (by decide) rest]
    simp [renderFieldW]

theorem replace_renderMemberW (pat rep : List Char) (h : patOK pat)
    (fk : List Char → List Char) (fn : RawNum → List Char)
    (kv : List Char × RawField) (rest : List Char)
    (hrest : ∀ p ∈ pat, rest.head? ≠ some p) :
    replaceL pat rep (renderMemberW fk fn kv ++ rest)
      = renderMemberW (fun s => replaceL pat rep (fk s))
          (fun m => replaceL pat rep (fn m)) kv ++ replaceL pat rep rest := by
  have e1 : renderMemberW fk fn kv ++ rest
      = '"' :: (fk kv.1 ++ '"' :: ':' :: (renderFieldW fk fn kv.2 ++ rest)) := by
    simp [renderMemberW]
  rw [e1, replaceL_struct_cons pat rep h '"' (by decide) _,
    replaceL_append_of_headSafe pat rep h (fk kv.1)
      ('"' :: ':' :: (renderFieldW fk fn kv.2 ++ rest))
      (patOK_headSafe pat h '"' (by decide) _),
    replaceL_struct_cons pat rep h '"' (by decide) _,
    replaceL_struct_cons pat rep h ':' (by decide) _,
    replace_renderFieldW pat rep h fk fn kv.2 rest hrest]
  simp [renderMemberW]

theorem replace_renderMembersW (pat rep : List Char) (h : patOK pat)
    (fk : List Char → List Char) (fn : RawNum → List Char) :
    ∀ (e : RawEntry) (rest : List Char), (∀ p ∈ pat, rest.head? ≠ some p) →
      replaceL pat rep (renderMembersW fk fn e ++ rest)
        = renderMembersW (fun s => replaceL pat rep (fk s))
            (fun m => replaceL pat rep (fn m)) e ++ replaceL pat rep rest
  | [], rest, hrest => by simp [renderMembersW]
  | [kv], rest, hrest => by
    simpa [renderMembersW] using
      replace_renderMemberW pat rep h fk fn kv rest hrest
  | kv :: kv2 :: t, rest, hrest => by
    have e1 : renderMembersW fk fn (kv :: kv2 :: t) ++ rest
        = renderMemberW fk fn kv ++ (',' :: (renderMembersW fk fn (kv2 :: t) ++ rest)) := by
      simp [renderMembersW]
    rw [e1, replace_renderMemberW pat rep h fk fn kv
        (',' :: (renderMembersW fk fn (kv2 :: t) ++ rest))
        (patOK_headSafe pat h ',' (by decide) _),
      replaceL_struct_cons pat rep h ',' (by decide) _,
      replace_renderMembersW pat rep h fk fn (kv2 :: t) rest hrest]
    simp [renderMembersW]

theorem replace_renderEntryW (pat rep : List Char) (h : patOK pat)
    (fk : List Char → List Char) (fn : RawNum → List Char) (e : RawEntry)
    (rest : List Char) (hrest : ∀ p ∈ pat, rest.head? ≠ some p) :
    replaceL pat rep (renderEntryW fk fn e ++ rest)
      = renderEntryW (fun s => replaceL pat rep (fk s))
          (fun m => replaceL pat rep (fn m)) e ++ replaceL pat rep rest := by
  have e1 : renderEntryW fk fn e ++ rest
      = '\x7b' :: (renderMembersW fk fn e ++ ('\x7d' :: rest)) := by
    simp [renderEntryW]
  rw [e1, replaceL_struct_cons pat rep h '\x7b' (by decide) _,
    replace_renderMembersW pat rep h fk fn e ('\x7d' :: rest)
      (patOK_headSafe pat h '\x7d' (by decide) rest),
    replaceL_struct_cons pat rep h '\x7d' (by decide) rest]
  simp [renderEntryW]

theorem replace_renderEntriesW (pat rep : List Char) (h : patOK pat)
    (fk : List Char → List Char) (fn : RawNum → List Char) :
    ∀ (es : List RawEntry) (rest : List Char), (∀ p ∈ pat, rest.head? ≠ some p) →
      replaceL pat rep (renderEntriesW fk fn es ++ rest)
        = renderEntriesW (fun s => replaceL pat rep (fk s))
            (fun m => replaceL pat rep (fn m)) es ++ replaceL pat rep rest
  | [], rest, hrest => by simp [renderEntriesW]
  | [e], rest, hrest => by
    simpa [renderEntriesW] using
      replace_renderEntryW pat rep h fk fn e rest hrest
  | e :: e2 :: t, rest, hrest => by
    have e1 : renderEntriesW fk fn (e :: e2 :: t) ++ rest
        = renderEntryW fk fn e ++ (',' :: (renderEntriesW fk fn (e2 :: t) ++ rest)) := by
      simp [renderEntriesW]
    rw [e1, replace_renderEntryW pat rep h fk fn e
        (',' :: (renderEntriesW fk fn (e2 :: t) ++ rest))
        (patOK_headSafe pat h ',' (by decide) _),
      replaceL_struct_cons pat rep h ',' (by decide) _,
      replace_renderEntriesW pat rep h fk fn (e2 :: t) rest hrest]
    simp [renderEntriesW]

theorem replace_renderResultW (pat rep : List Char) (h : patOK pat)
    (fk : List Char → List Char) (fn : RawNum → List Char) (r : RawResult) :
    replaceL pat rep (renderResultW fk fn r)
      = renderResultW (fun s => replaceL pat rep (fk s))
          (fun m => replaceL pat rep (fn m)) r := by
  cases r with
  | rerror msg =>
    have e1 : renderResultW fk fn (.rerror msg)
        = renderEntryW fk fn [(chars "error", .fstr msg)] ++ [] := by
      simp [renderResultW]
    rw [e1, replace_renderEntryW pat rep h fk fn _ [] (by simp)]
    simp [renderResultW, replaceL, replaceGo]
  | ralt es =>
    have e1 : renderResultW fk fn (.ralt es)
        = '\x7b' :: '"' :: (chars "alt"
            ++ ('"' :: ':' :: '[' :: (renderEntriesW fk fn es ++ (']' :: ['\x7d'])))) := by
      simp [renderResultW]
    rw [e1, replaceL_struct_cons pat rep h '\x7b' (by decide) _,
      replaceL_struct_cons pat rep h '"' (by decide) _,
      replaceL_append_of_headSafe pat rep h (chars "alt") _
        (patOK_headSafe pat h '"' (by decide) _),
      replaceL_id_of_not_mem pat rep (chars "alt") 'n' h.2.1 (by decide),
      replaceL_struct_cons pat rep h '"' (by decide) _,
      replaceL_struct_cons pat rep h ':' (by decide) _,
      replaceL_struct_cons pat rep h '[' (by decide) _,
      replace_renderEntriesW pat rep h fk fn es (']' :: ['\x7d'])
        (patOK_headSafe pat h ']' (by decide) _),
      replaceL_struct_cons pat rep h ']' (by decide) _,
      replaceL_struct_cons pat rep h '\x7d' (by decide) _]
    simp [renderResultW, replaceL, replaceGo]

/-! ### Character content of well-formed tokens -/

theorem isIntTok_digits (ip : List Char) (h : isIntTok ip = true) :
    ∀ c ∈ ip, isDigitC c = true := by
  cases ip with
  | nil => simp [isIntTok] at h
  | cons c0 ds =>
    simp only [isIntTok] at h
    by_cases h0 : c0 = '0'
    · rw [if_pos h0] at h
      have hds : ds = [] := by simpa [List.isEmpty_iff] using h
      subst hds
      subst h0
      intro c hc
      simp only [List.mem_singleton] at hc
      subst hc
      decide
    · rw [if_neg h0] at h
      simp only [Bool.and_eq_true, List.all_eq_true] at h
      intro c hc
      rcases List.mem_cons.mp hc with rfl | hm
      · exact h.1
      · exact h.2 c hm

theorem isFracTok_chars (fp : List Char) (h : isFracTok fp = true) :
    ∀ c ∈ fp, c = '.' ∨ isDigitC c = true := by
  cases fp with
  | nil => simp
  | cons c0 ds =>
    simp only [isFracTok, Bool.and_eq_true, List.all_eq_true,
      decide_eq_true_eq] at h
    intro c hc
    rcases List.mem_cons.mp hc with rfl | hm
    · exact Or.inl h.1.1
    · exact Or.inr (h.2 c hm)

theorem isExpTok_chars (es : List Char) (h : isExpTok es = true) :
    ∀ c ∈ es, c = 'e' ∨ c = 'E' ∨ c = '+' ∨ c = '-' ∨ isDigitC c = true := by
  cases es with
  | nil => simp
  | cons c0 tail =>
    cases tail with
    | nil => simp [isExpTok] at h
    | cons sn ds =>
      simp only [isExpTok, Bool.and_eq_true, Bool.or_eq_true, beq_iff_eq] at h
      obtain ⟨h0, h1⟩ := h
      have hds : ∀ c ∈ ds, isDigitC c = true := by
        by_cases hsn : sn = '+' ∨ sn = '-'
        · rw [if_pos hsn] at h1
          simp only [Bool.and_eq_true, List.all_eq_true] at h1
          exact h1.2
        · rw [if_neg hsn] at h1
          simp only [Bool.and_eq_true, List.all_eq_true] at h1
          exact h1.2
      have hsn2 : sn = '+' ∨ sn = '-' ∨ isDigitC sn = true := by
        by_cases hsn : sn = '+' ∨ sn = '-'
        · rcases hsn with h2 | h2
          · exact Or.inl h2
          · exact Or.inr (Or.inl h2)
        · rw [if_neg hsn] at h1
          simp only [Bool.and_eq_true] at h1
          exact Or.inr (Or.inr h1.1)
      intro c hc
      rcases List.mem_cons.mp hc with rfl | hm
      · rcases h0 with h0 | h0
        · exact Or.inl h0
        · exact Or.inr (Or.inl h0)
      rcases List.mem_cons.mp hm with rfl | hm2
      · rcases hsn2 with h2 | h2 | h2
        · exact Or.inr (Or.inr (Or.inl h2))
        · exact Or.inr (Or.inr (Or.inr (Or.inl h2)))
        · exact Or.inr (Or.inr (Or.inr (Or.inr h2)))
      · exact Or.inr (Or.inr (Or.inr (Or.inr (hds c hm2))))

theorem no_n_renderNum (neg : Bool) (ip fp es : List Char)
    (h : numWF (.rdec neg ip fp es) = true) :
    'n' ∉ renderNum (.rdec neg ip fp es) := by
  simp only [numWF, Bool.and_eq_true] at h
  obtain ⟨⟨hip, hfp⟩, hes⟩ := h
  intro hmem
  simp only [renderNum, List.mem_append] at hmem
  rcases hmem with hA | hB
  · cases neg <;> simp at hA
  rcases hB with hI | hC
  · have := isIntTok_digits ip hip 'n' hI
    exact absurd this (by decide)
  rcases hC with hF | hE
  · rcases isFracTok_chars fp hfp 'n' hF with h1 | h1
    · exact absurd h1 (by decide)
    · exact absurd h1 (by decide)
  · rcases isExpTok_chars es hes 'n' hE with h1 | h1 | h1 | h1 | h1 <;>
      exact absurd h1 (by decide)

/-! ### Congruence of the render in the token maps -/

theorem renderFieldW_congr (fk fk' : List Char → List Char)
    (fn fn' : RawNum → List Char) (hk : ∀ s, fk s = fk' s)
    (hfn : ∀ m, numWF m = true → fn m = fn' m) (v : RawField)
    (hv : fieldWF v = true) :
    renderFieldW fk fn v = renderFieldW fk' fn' v := by
  cases v with
  | fnum m =>
    simpa [renderFieldW] using hfn m (by simpa [fieldWF] using hv)
  | fstr s => simp [renderFieldW, hk]

theorem renderMembersW_congr (fk fk' : List Char → List Char)
    (fn fn' : RawNum → List Char) (hk : ∀ s, fk s = fk' s)
    (hfn : ∀ m, numWF m = true → fn m = fn' m) :
    ∀ e : RawEntry, e.all (fun kv => kv.1.all strCharOK && fieldWF kv.2) = true →
      renderMembersW fk fn e = renderMembersW fk' fn' e
  | [], _ => rfl
  | [kv], h => by
    simp only [List.all_cons, List.all_nil, Bool.and_true, Bool.and_eq_true] at h
    simp [renderMembersW, renderMemberW, hk,
      renderFieldW_congr fk fk' fn fn' hk hfn kv.2 h.2]
  | kv :: kv2 :: t, h => by
    simp only [List.all_cons, Bool.and_eq_true] at h
    have ht : (kv2 :: t).all (fun kv => kv.1.all strCharOK && fieldWF kv.2) = true := by
      simp only [List.all_cons, Bool.and_eq_true]
      exact ⟨h.2.1, h.2.2⟩
    simp [renderMembersW, renderMemberW, hk,
      renderFieldW_congr fk fk' fn fn' hk hfn kv.2 h.1.2,
      renderMembersW_congr fk fk' fn fn' hk hfn (kv2 :: t) ht]

theorem renderEntriesW_congr (fk fk' : List Char → List Char)
    (fn fn' : RawNum → List Char) (hk : ∀ s, fk s = fk' s)
    (hfn : ∀ m, numWF m = true → fn m = fn' m) :
    ∀ es : List RawEntry, es.all entryWF = true →
      renderEntriesW fk fn es = renderEntriesW fk' fn' es
  | [], _ => rfl
  | [e], h => by
    simp only [List.all_cons, List.all_nil, Bool.and_true, entryWF,
      Bool.and_eq_true] at h
    simp [renderEntriesW, renderEntryW,
      renderMembersW_congr fk fk' fn fn' hk hfn e h.1]
  | e :: e2 :: t, h => by
    simp only [List.all_cons, Bool.and_eq_true, entryWF] at h
    have ht : (e2 :: t).all entryWF = true := by
      simp only [List.all_cons, Bool.and_eq_true, entryWF]
      exact ⟨h.2.1, h.2.2⟩
    simp [renderEntriesW, renderEntryW,
      renderMembersW_congr fk fk' fn fn' hk hfn e h.1.1,
      renderEntriesW_congr fk fk' fn fn' hk hfn (e2 :: t) ht]

theorem renderResultW_congr (fk fk' : List Char → List Char)
    (fn fn' : RawNum → List Char) (hk : ∀ s, fk s = fk' s)
    (hfn : ∀ m, numWF m = true → fn m = fn' m) :
    ∀ r : RawResult, resultWF r = true →
      renderResultW fk fn r = renderResultW fk' fn' r
  | .rerror msg, _ => by
    simp [renderResultW, renderEntryW, renderMembersW, renderMemberW,
      renderFieldW, hk]
  | .ralt es, h => by
    simp [renderResultW,
      renderEntriesW_congr fk fk' fn fn' hk hfn es (by simpa [resultWF] using h)]

/-- The two replaces act on a well-formed number token as `fixNum`. -/
theorem fixNaN_renderNum (m : RawNum) (h : numWF m = true) :
    fixNaN (renderNum m) = fixNum m := by
  cases m with
  | rnan => decide
  | rnegnan => decide
  | rdec neg ip fp es =>
    have hn := no_n_renderNum neg ip fp es h
    show replaceL (chars "nan") (chars "NaN")
      (replaceL (chars "-nan") (chars "NaN") (renderNum (.rdec neg ip fp es))) = _
    rw [replaceL_id_of_not_mem _ _ _ 'n' (by decide) hn,
      replaceL_id_of_not_mem _ _ _ 'n' (by decide) hn]
    rfl

/-- Stage one: the NaN fix turns the raw result text into the render
with normalized tokens, keys and string contents. -/
theorem fixNaN_render (r : RawResult) (h : resultWF r = true) :
    fixNaN (renderResult r) = renderResultW fixNaN fixNum r := by
  have hp1 : patOK (chars "-nan") := ⟨by decide, by decide, by decide⟩
  have hp2 : patOK (chars "nan") := ⟨by decide, by decide, by decide⟩
  show replaceL (chars "nan") (chars "NaN")
      (replaceL (chars "-nan") (chars "NaN") (renderResultW id renderNum r)) = _
  rw [replace_renderResultW _ _ hp1 id renderNum r,
    replace_renderResultW _ _ hp2 _ _ r]
  exact renderResultW_congr _ _ _ _ (fun s => rfl)
    (fun m hm => fixNaN_renderNum m hm) r h

/-! ### The parser on normalized rendered text: scanners -/

/-- A remainder that cannot extend a number token. -/
def numStopP (rest : List Char) : Prop :=
  ∀ c, rest.head? = some c → isDigitC c = false ∧ c ≠ '.' ∧ c ≠ 'e' ∧ c ≠ 'E'

theorem dropWs_not_ws (c : Char) (t : List Char) (h : isWsC c = false) :
    dropWs (c :: t) = c :: t := by
  simp [dropWs, h]

theorem strBody_render (s : List Char) (hs : s.all strCharOK = true) (rest : List Char) :
    strBody (s ++ '"' :: rest) = some (s, rest) := by
  induction s with
  | nil => simp [strBody]
  | cons c t ih =>
    rw [List.all_cons, Bool.and_eq_true] at hs
    have h1 : c ≠ '"' := by
      intro heq; subst heq; exact absurd hs.1 (by decide)
    have h2 : c ≠ '\\' := by
      intro heq; subst heq; exact absurd hs.1 (by decide)
    simp only [List.cons_append]
    simp [strBody, h1, h2, ih hs.2]

theorem readDigits_render (ds : List Char) (hds : ∀ c ∈ ds, isDigitC c = true)
    (rest : List Char) (hrest : ∀ c, rest.head? = some c → isDigitC c = false) :
    readDigits (ds ++ rest) = (ds, rest) := by
  induction ds with
  | nil =>
    cases rest with
    | nil => rfl
    | cons c t => simp [readDigits, hrest c rfl]
  | cons c t ih =>
    have hc := hds c (by simp)
    simp [readDigits, hc, ih (fun x hx => hds x (by simp [hx]))]

theorem scanIntPart_render (ip : List Char) (h : isIntTok ip = true) (rest : List Char)
    (hrest : ∀ c, rest.head? = some c → isDigitC c = false) :
    scanIntPart (ip ++ rest) = some (ip, rest) := by
  cases ip with
  | nil => simp [isIntTok] at h
  | cons c0 ds =>
    simp only [isIntTok] at h
    by_cases h0 : c0 = '0'
    · subst h0
      rw [if_pos rfl] at h
      have hds : ds = [] := by simpa [List.isEmpty_iff] using h
      subst hds
      simp [scanIntPart]
    · rw [if_neg h0] at h
      simp only [Bool.and_eq_true, List.all_eq_true] at h
      simp [scanIntPart, h0, h.1, readDigits_render ds h.2 rest hrest]

theorem scanFrac_render (fp : List Char) (h : isFracTok fp = true) (rest : List Char)
    (hrest : ∀ c, rest.head? = some c → isDigitC c = false ∧ c ≠ '.') :
    scanFrac (fp ++ rest) = some (fp, rest) := by
  cases fp with
  | nil =>
    cases rest with
    | nil => rfl
    | cons c t => simp [scanFrac, (hrest c rfl).2]
  | cons c0 ds =>
    simp only [isFracTok, Bool.and_eq_true, List.all_eq_true,
      decide_eq_true_eq] at h
    obtain ⟨⟨hdot, hne⟩, hds⟩ := h
    subst hdot
    have hr : readDigits (ds ++ rest) = (ds, rest) :=
      readDigits_render ds hds rest (fun c hc => (hrest c hc).1)
    cases ds with
    | nil => simp at hne
    | cons d dt =>
      simp only [List.cons_append] at hr
      simp [scanFrac, hr]

theorem scanExp_render (es : List Char) (h : isExpTok es = true) (rest : List Char)
    (hrest : ∀ c, rest.head? = some c → isDigitC c = false ∧ c ≠ 'e' ∧ c ≠ 'E') :
    scanExp (es ++ rest) = some (es, rest) := by
  cases es with
  | nil =>
    cases rest with
    | nil => rfl
    | cons c t =>
      obtain ⟨h1, h2, h3⟩ := hrest c rfl
      simp [scanExp, h2, h3]
  | cons c0 tail =>
    cases tail with
    | nil => simp [isExpTok] at h
    | cons sn ds =>
      simp only [isExpTok, Bool.and_eq_true, Bool.or_eq_true, beq_iff_eq] at h
      obtain ⟨h0, h1⟩ := h
      by_cases hsn : sn = '+' ∨ sn = '-'
      · rw [if_pos hsn] at h1
        simp only [Bool.and_eq_true, List.all_eq_true] at h1
        obtain ⟨hne, hds⟩ := h1
        have hr : readDigits (ds ++ rest) = (ds, rest) :=
          readDigits_render ds hds rest (fun c hc => (hrest c hc).1)
        cases ds with
        | nil => simp at hne
        | cons d dt =>
          simp only [List.cons_append] at hr
          rcases h0 with rfl | rfl <;> rcases hsn with rfl | rfl <;>
            simp [scanExp, hr]
      · rw [if_neg hsn] at h1
        simp only [Bool.and_eq_true, List.all_eq_true] at h1
        obtain ⟨hsd, hds⟩ := h1
        have hr : readDigits ((sn :: ds) ++ rest) = (sn :: ds, rest) := by
          refine readDigits_render (sn :: ds) ?_ rest (fun c hc => (hrest c hc).1)
          intro c hc
          rcases List.mem_cons.mp hc with rfl | hm
          · exact hsd
          · exact hds c hm
        simp only [List.cons_append] at hr
        rcases h0 with rfl | rfl <;> simp [scanExp, hsn, hr]

theorem scanNum_render (neg : Bool) (ip fp es : List Char)
    (h : numWF (.rdec neg ip fp es) = true) (rest : List Char)
    (hrest : numStopP rest) :
    scanNum (renderNum (.rdec neg ip fp es) ++ rest)
      = some (renderNum (.rdec neg ip fp es), rest) := by
  simp only [numWF, Bool.and_eq_true] at h
  obtain ⟨⟨hip, hfp⟩, hes⟩ := h
  have hexpFirst : ∀ c0 ds, es = c0 :: ds → isDigitC c0 = false ∧ c0 ≠ '.' := by
    intro c0 ds he
    subst he
    cases ds with
    | nil => simp [isExpTok] at hes
    | cons sn dt =>
      simp only [isExpTok, Bool.and_eq_true, Bool.or_eq_true, beq_iff_eq] at hes
      rcases hes.1 with rfl | rfl <;> exact ⟨by decide, by decide⟩
  have hnd2 : ∀ c, (es ++ rest).head? = some c → isDigitC c = false ∧ c ≠ '.' := by
    intro c hc
    cases es with
    | cons c0 ds =>
      simp only [List.cons_append, List.head?_cons, Option.some.injEq] at hc
      subst hc
      exact hexpFirst _ ds rfl
    | nil =>
      simp only [List.nil_append] at hc
      exact ⟨(hrest c hc).1, (hrest c hc).2.1⟩
  have hnd1 : ∀ c, (fp ++ (es ++ rest)).head? = some c → isDigitC c = false := by
    intro c hc
    cases fp with
    | cons c0 ds =>
      simp only [List.cons_append, List.head?_cons, Option.some.injEq] at hc
      subst hc
      simp only [isFracTok, Bool.and_eq_true, decide_eq_true_eq] at hfp
      rw [hfp.1.1]
      decide
    | nil =>
      simp only [List.nil_append] at hc
      exact (hnd2 c hc).1
  have h3 : scanExp (es ++ rest) = some (es, rest) :=
    scanExp_render es hes rest
      (fun c hc => ⟨(hrest c hc).1, (hrest c hc).2.2.1, (hrest c hc).2.2.2⟩)
  have h2 : scanFrac (fp ++ (es ++ rest)) = some (fp, es ++ rest) :=
    scanFrac_render fp hfp (es ++ rest) hnd2
  have h1 : scanIntPart (ip ++ (fp ++ (es ++ rest))) = some (ip, fp ++ (es ++ rest)) :=
    scanIntPart_render ip hip _ hnd1
  cases neg with
  | true =>
    have e1 : renderNum (.rdec true ip fp es) ++ rest
        = '-' :: (ip ++ (fp ++ (es ++ rest))) := by
      simp [renderNum]
    rw [e1]
    simp [scanNum, h1, h2, h3, renderNum]
  | false =>
    cases ip with
    | nil => simp [isIntTok] at hip
    | cons c0 ds =>
      have hc0 : isDigitC c0 = true := isIntTok_digits _ hip c0 (by simp)
      have hne : c0 ≠ '-' := by
        intro heq
        subst heq
        exact absurd hc0 (by decide)
      have e1 : renderNum (.rdec false (c0 :: ds) fp es) ++ rest
          = c0 :: (ds ++ (fp ++ (es ++ rest))) := by
        simp [renderNum]
      rw [e1]
      simp only [List.cons_append] at h1
      simp [scanNum, hne, h1, h2, h3, renderNum]

theorem parseVal_NaN (fuel : Nat) (rest : List Char) :
    parseVal (fuel + 1) (chars "NaN" ++ rest) = some (.num .nan, rest) := rfl

theorem parseVal_num_branch (fuel : Nat) (c0 : Char) (t0 : List Char)
    (hws : isWsC c0 = false) (h1 : c0 ≠ 'n') (h2 : c0 ≠ 't') (h3 : c0 ≠ 'f')
    (h4 : c0 ≠ 'N') (h5 : c0 ≠ '"') (h6 : c0 ≠ '[') (h7 : c0 ≠ '\x7b') :
    parseVal (fuel + 1) (c0 :: t0)
      = (scanNum (c0 :: t0)).bind fun p => some (.num (.val (numValOf p.1)), p.2) := by
  simp only [parseVal]
  rw [dropWs_not_ws c0 t0 hws]
  split
  case _ r heq => injection heq with ha _; exact absurd ha h1
  case _ r heq => injection heq with ha _; exact absurd ha h2
  case _ r heq => injection heq with ha _; exact absurd ha h3
  case _ r heq => injection heq with ha _; exact absurd ha h4
  case _ r heq => injection heq with ha _; exact absurd ha h5
  case _ r heq => injection heq with ha _; exact absurd ha h6
  case _ r heq => injection heq with ha _; exact absurd ha h7
  case _ => rfl

theorem parseVal_str (fuel : Nat) (s : List Char) (hs : s.all strCharOK = true)
    (rest : List Char) :
    parseVal (fuel + 1) ('"' :: (s ++ '"' :: rest)) = some (.str s, rest) := by
  simp only [parseVal]
  rw [dropWs_not_ws '"' _ (by decide)]
  simp [strBody_render s hs rest]

theorem headNumFacts (c0 : Char) (h : c0 = '-' ∨ isDigitC c0 = true) :
    isWsC c0 = false ∧ c0 ≠ 'n' ∧ c0 ≠ 't' ∧ c0 ≠ 'f' ∧ c0 ≠ 'N' ∧
      c0 ≠ '"' ∧ c0 ≠ '[' ∧ c0 ≠ '\x7b' := by
  rcases h with rfl | hd
  · exact ⟨by decide, by decide, by decide, by decide, by decide, by decide,
      by decide, by decide⟩
  · have hws : isWsC c0 = false := by
      cases hws0 : isWsC c0
      · rfl
      · exfalso
        simp only [isWsC, Bool.or_eq_true, decide_eq_true_eq] at hws0
        rcases hws0 with ((rfl | rfl) | rfl) | rfl <;> exact absurd hd (by decide)
    refine ⟨hws, ?_, ?_, ?_, ?_, ?_, ?_, ?_⟩ <;>
      (intro heq; subst heq; exact absurd hd (by decide))

theorem parseVal_fieldN (fuel : Nat) (v : RawField) (hv : fieldWF v = true)
    (rest : List Char) (hrest : numStopP rest) :
    parseVal (fuel + 1) (renderFieldW fixNaN fixNum v ++ rest)
      = some (interpField v, rest) := by
  cases v with
  | fnum m =>
    cases m with
    | rnan => exact parseVal_NaN fuel rest
    | rnegnan => exact parseVal_NaN fuel rest
    | rdec neg ip fp es =>
      have hm : numWF (.rdec neg ip fp es) = true := by simpa [fieldWF] using hv
      have e0 : renderFieldW fixNaN fixNum (.fnum (.rdec neg ip fp es)) ++ rest
          = renderNum (.rdec neg ip fp es) ++ rest := rfl
      rw [e0]
      obtain ⟨c0, t0, he, hc0⟩ : ∃ c0 t0,
          renderNum (.rdec neg ip fp es) ++ rest = c0 :: t0 ∧
            (c0 = '-' ∨ isDigitC c0 = true) := by
        cases neg with
        | true =>
          exact ⟨'-', ip ++ (fp ++ (es ++ rest)), by simp [renderNum], Or.inl rfl⟩
        | false =>
          cases ip with
          | nil =>
            simp only [numWF, Bool.and_eq_true] at hm
            simp [isIntTok] at hm
          | cons d ds =>
            have hip : isIntTok (d :: ds) = true := by
              simp only [numWF, Bool.and_eq_true] at hm
              exact hm.1.1
            exact ⟨d, ds ++ (fp ++ (es ++ rest)), by simp [renderNum],
              Or.inr (isIntTok_digits _ hip d (by simp))⟩
      obtain ⟨f0, f1, f2, f3, f4, f5, f6, f7⟩ := headNumFacts c0 hc0
      rw [he, parseVal_num_branch fuel c0 t0 f0 f1 f2 f3 f4 f5 f6 f7, ← he,
        scanNum_render neg ip fp es hm rest hrest]
      rfl
  | fstr s =>
    have hsOK : (fixNaN s).all strCharOK = true :=
      strOK_fixNaN s (by simpa [fieldWF] using hv)
    have e0 : renderFieldW fixNaN fixNum (.fstr s) ++ rest
        = '"' :: (fixNaN s ++ '"' :: rest) := by
      simp [renderFieldW]
    rw [e0, parseVal_str fuel (fixNaN s) hsOK rest]
    rfl

theorem numStopP_cons (c0 : Char)
    (h : isDigitC c0 = false ∧ c0 ≠ '.' ∧ c0 ≠ 'e' ∧ c0 ≠ 'E')
    (t : List Char) : numStopP (c0 :: t) := by
  intro c hc
  simp only [List.head?] at hc
  cases hc
  exact h

theorem membersGo_render (f : Nat) (e : RawEntry) :
    e ≠ [] →
    e.all (fun kv => kv.1.all strCharOK && fieldWF kv.2) = true →
    ∀ (n : Nat), e.length ≤ n → ∀ (rest : List Char),
    membersGo (parseVal (f + 1)) n
        (renderMembersW fixNaN fixNum e ++ '\x7d' :: rest)
      = some (e.map fun kv => (fixNaN kv.1, interpField kv.2), rest) := by
  induction e with
  | nil => intro he; exact absurd rfl he
  | cons kv tl ih =>
    intro _ hwf n hn rest
    have hk1 : kv.1.all strCharOK = true := by
      simp only [List.all_cons, Bool.and_eq_true] at hwf
      exact hwf.1.1
    have hk2 : fieldWF kv.2 = true := by
      simp only [List.all_cons, Bool.and_eq_true] at hwf
      exact hwf.1.2
    have htl : tl.all (fun kv => kv.1.all strCharOK && fieldWF kv.2) = true := by
      simp only [List.all_cons, Bool.and_eq_true] at hwf
      exact hwf.2
    obtain ⟨m, rfl⟩ : ∃ m, n = m + 1 := by
      refine ⟨n - 1, ?_⟩
      have := List.length_pos.mpr (List.cons_ne_nil kv tl)
      omega
    cases tl with
    | nil =>
      simp only [renderMembersW, renderMemberW, List.cons_append, List.append_assoc,
        membersGo]
      rw [dropWs_not_ws '"' _ (by decide)]
      simp [strBody_render (fixNaN kv.1) (strOK_fixNaN kv.1 hk1),
        dropWs_not_ws ':' (renderFieldW fixNaN fixNum kv.2 ++ '\x7d' :: rest) (by decide),
        parseVal_fieldN f kv.2 hk2 ('\x7d' :: rest)
          (numStopP_cons '\x7d' (by decide) rest),
        dropWs_not_ws '\x7d' rest (by decide)]
    | cons kv2 t =>
      simp only [renderMembersW, renderMemberW, List.cons_append, List.append_assoc,
        membersGo]
      rw [dropWs_not_ws '"' _ (by decide)]
      simp [strBody_render (fixNaN kv.1) (strOK_fixNaN kv.1 hk1),
        dropWs_not_ws ':'
          (renderFieldW fixNaN fixNum kv.2 ++
            ',' :: (renderMembersW fixNaN fixNum (kv2 :: t) ++ '\x7d' :: rest))
          (by decide),
        parseVal_fieldN f kv.2 hk2
          (',' :: (renderMembersW fixNaN fixNum (kv2 :: t) ++ '\x7d' :: rest))
          (numStopP_cons ',' (by decide) _),
        dropWs_not_ws ','
          (renderMembersW fixNaN fixNum (kv2 :: t) ++ '\x7d' :: rest) (by decide),
        ih (List.cons_ne_nil kv2 t) htl m (by simpa using hn) rest]

theorem setKey_append (k : List Char) (v : PyJson)
    (kvs : List (List Char × PyJson)) (h : k ∉ kvs.map Prod.fst) :
    setKey k v kvs = kvs ++ [(k, v)] := by
  induction kvs with
  | nil => rfl
  | cons kv rest ih =>
    obtain ⟨k0, v0⟩ := kv
    simp only [List.map_cons, List.mem_cons, not_or] at h
    simp only [setKey, List.cons_append, ih h.2]
    rw [if_neg fun hk => h.1 hk.symm]

theorem foldl_setKey_go (kvs : List (List Char × PyJson)) :
    ∀ (acc : List (List Char × PyJson)),
      (∀ k ∈ kvs.map Prod.fst, k ∉ acc.map Prod.fst) →
      keyNodup (kvs.map Prod.fst) = true →
      kvs.foldl (fun acc kv => setKey kv.1 kv.2 acc) acc = acc ++ kvs := by
  induction kvs with
  | nil => intro acc _ _; simp
  | cons kv rest ih =>
    intro acc hd hn
    simp only [List.map_cons, keyNodup, Bool.and_eq_true, Bool.not_eq_true'] at hn
    have h1 : kv.1 ∉ acc.map Prod.fst := hd kv.1 (by simp)
    have h2 : kv.1 ∉ rest.map Prod.fst := by
      intro hmem
      have : (rest.map Prod.fst).contains kv.1 = true := by
        simpa [List.contains, List.elem_iff] using hmem
      rw [hn.1] at this
      exact Bool.false_ne_true this
    simp only [List.foldl_cons, setKey_append kv.1 kv.2 acc h1]
    rw [ih (acc ++ [(kv.1, kv.2)]) ?_ hn.2]
    · simp
    · intro k hk
      simp only [List.map_append, List.mem_append, List.map_cons, List.map_nil,
        List.mem_singleton, not_or]
      refine ⟨fun hka => hd k (by simp [hk]) hka, fun hke => ?_⟩
      exact h2 (hke ▸ hk)

theorem foldl_setKey (kvs : List (List Char × PyJson))
    (hn : keyNodup (kvs.map Prod.fst) = true) :
    kvs.foldl (fun acc kv => setKey kv.1 kv.2 acc) [] = kvs := by
  simpa using foldl_setKey_go kvs [] (by simp) hn

theorem lookup_of_nodup (kvs : List (List Char × PyJson)) (k : List Char)
    (v : PyJson) (hn : keyNodup (kvs.map Prod.fst) = true)
    (hm : (k, v) ∈ kvs) : lookupKey k kvs = some v := by
  induction kvs with
  | nil => exact absurd hm (List.not_mem_nil _)
  | cons kv rest ih =>
    obtain ⟨k0, v0⟩ := kv
    simp only [List.map_cons, keyNodup, Bool.and_eq_true, Bool.not_eq_true'] at hn
    rcases List.mem_cons.mp hm with heq | hmem
    · injection heq with e1 e2
      subst e1
      subst e2
      simp [lookupKey]
    · have hne : k0 ≠ k := by
        rintro rfl
        have hk0 : k0 ∈ rest.map Prod.fst := List.mem_map_of_mem Prod.fst hmem
        have hc : (rest.map Prod.fst).contains k0 = true := by
          simpa [List.contains, List.elem_iff] using hk0
        rw [hn.1] at hc
        exact Bool.false_ne_true hc
      simp only [lookupKey, if_neg hne]
      exact ih hn.2 hmem

theorem entry_keys_nodup (e : RawEntry) (he : entryWF e = true) :
    keyNodup ((e.map fun kv => (fixNaN kv.1, interpField kv.2)).map Prod.fst)
      = true := by
  simp only [entryWF, Bool.and_eq_true] at he
  have : (e.map fun kv => (fixNaN kv.1, interpField kv.2)).map Prod.fst
      = e.map fun kv => fixNaN kv.1 := by
    simp [List.map_map, Function.comp]
  rw [this]
  exact he.2

theorem parseVal_obj_arm (fuel : Nat) (t : List Char) :
    parseVal (fuel + 1) ('\x7b' :: '"' :: t)
      = (membersGo (parseVal fuel) fuel ('"' :: t)).bind fun p =>
          some (.obj (p.1.foldl (fun acc kv => setKey kv.1 kv.2 acc) []), p.2) := rfl

theorem parseVal_entry (f : Nat) (e : RawEntry) (he : entryWF e = true)
    (hlen : e.length ≤ f + 1) (rest : List Char) :
    parseVal (f + 2) (renderEntryW fixNaN fixNum e ++ rest)
      = some (interpEntry e, rest) := by
  have hwf : e.all (fun kv => kv.1.all strCharOK && fieldWF kv.2) = true := by
    simp only [entryWF, Bool.and_eq_true] at he
    exact he.1
  cases e with
  | nil =>
    simp only [renderEntryW, renderMembersW, List.nil_append, List.cons_append]
    simp only [parseVal]
    rw [dropWs_not_ws '\x7b' _ (by decide)]
    simp [dropWs_not_ws '\x7d' rest (by decide), interpEntry]
  | cons kv tl =>
    have hren : renderEntryW fixNaN fixNum (kv :: tl) ++ rest
        = '\x7b' :: (renderMembersW fixNaN fixNum (kv :: tl) ++ '\x7d' :: rest) := by
      simp [renderEntryW]
    rw [hren]
    have hmem := membersGo_render f (kv :: tl) (List.cons_ne_nil kv tl) hwf
      (f + 1) (by simpa using hlen) rest
    have hhead : ∃ t1, renderMembersW fixNaN fixNum (kv :: tl) ++ '\x7d' :: rest
        = '"' :: t1 := by
      cases tl with
      | nil =>
        exact ⟨fixNaN kv.1 ++ '"' :: ':' ::
          (renderFieldW fixNaN fixNum kv.2 ++ '\x7d' :: rest),
          by simp [renderMembersW, renderMemberW]⟩
      | cons kv2 t =>
        exact ⟨fixNaN kv.1 ++ '"' :: ':' ::
          (renderFieldW fixNaN fixNum kv.2 ++
            ',' :: (renderMembersW fixNaN fixNum (kv2 :: t) ++ '\x7d' :: rest)),
          by simp [renderMembersW, renderMemberW]⟩
    obtain ⟨t1, ht1⟩ := hhead
    have hmem2 := ht1 ▸ hmem
    rw [ht1]
    have hf : f + 2 = f + 1 + 1 := rfl
    rw [hf, parseVal_obj_arm (f + 1) t1, hmem2]
    simp only [Option.some_bind]
    rw [foldl_setKey (List.map (fun kv => (fixNaN kv.1, interpField kv.2)) (kv :: tl))
      (entry_keys_nodup (kv :: tl) he)]
    rfl

theorem renderMembersW_length (fk : List Char → List Char)
    (fn : RawNum → List Char) (e : RawEntry) :
    e.length ≤ (renderMembersW fk fn e).length := by
  induction e with
  | nil => simp [renderMembersW]
  | cons kv tl ih =>
    cases tl with
    | nil => simp [renderMembersW, renderMemberW]
    | cons kv2 t =>
      simp only [renderMembersW, List.length_append, List.length_cons] at ih ⊢
      omega

theorem renderEntryW_length (fk : List Char → List Char)
    (fn : RawNum → List Char) (e : RawEntry) :
    (renderEntryW fk fn e).length = (renderMembersW fk fn e).length + 2 := by
  simp [renderEntryW]

theorem renderEntriesW_length (fk : List Char → List Char)
    (fn : RawNum → List Char) (es : List RawEntry) :
    es.length ≤ (renderEntriesW fk fn es).length ∧
      ∀ e ∈ es, e.length ≤ (renderEntriesW fk fn es).length := by
  induction es with
  | nil => simp [renderEntriesW]
  | cons e tl ih =>
    have he : e.length + 2 ≤ (renderEntryW fk fn e).length := by
      rw [renderEntryW_length]
      have := renderMembersW_length fk fn e
      omega
    cases tl with
    | nil =>
      constructor
      · simp only [renderEntriesW, List.length_cons, List.length_nil]
        omega
      · intro e2 he2
        rcases List.mem_singleton.mp he2 with rfl
        simp only [renderEntriesW]
        omega
    | cons e2 t =>
      simp only [renderEntriesW, List.length_append, List.length_cons] at ih ⊢
      refine ⟨by omega, ?_⟩
      intro e3 he3
      rcases List.mem_cons.mp he3 with rfl | hm
      · omega
      · have := ih.2 e3 hm
        omega

theorem parseVal_empty_arr (fuel : Nat) (rest : List Char) :
    parseVal (fuel + 1) ('[' :: ']' :: rest) = some (.arr [], rest) := rfl

theorem parseVal_arr_arm (fuel : Nat) (t : List Char) :
    parseVal (fuel + 1) ('[' :: '\x7b' :: t)
      = (itemsGo (parseVal fuel) fuel ('\x7b' :: t)).bind fun p =>
          some (.arr p.1, p.2) := rfl

theorem itemsGo_render (f : Nat) (es : List RawEntry) :
    es ≠ [] → es.all entryWF = true → (∀ e ∈ es, e.length ≤ f + 1) →
    ∀ (n : Nat), es.length ≤ n → ∀ (rest : List Char),
    itemsGo (parseVal (f + 2)) n (renderEntriesW fixNaN fixNum es ++ ']' :: rest)
      = some (es.map interpEntry, rest) := by
  induction es with
  | nil => intro he; exact absurd rfl he
  | cons e tl ih =>
    intro _ hwf hl n hn rest
    have he1 : entryWF e = true := by
      simp only [List.all_cons, Bool.and_eq_true] at hwf
      exact hwf.1
    have htl : tl.all entryWF = true := by
      simp only [List.all_cons, Bool.and_eq_true] at hwf
      exact hwf.2
    obtain ⟨m, rfl⟩ : ∃ m, n = m + 1 := by
      refine ⟨n - 1, ?_⟩
      have := List.length_pos.mpr (List.cons_ne_nil e tl)
      omega
    cases tl with
    | nil =>
      simp only [renderEntriesW, List.cons_append, List.append_assoc, itemsGo]
      rw [parseVal_entry f e he1 (hl e (by simp)) (']' :: rest)]
      simp [dropWs_not_ws ']' rest (by decide)]
    | cons e2 t =>
      simp only [renderEntriesW, List.cons_append, List.append_assoc, itemsGo]
      rw [parseVal_entry f e he1 (hl e (by simp))
        (',' :: (renderEntriesW fixNaN fixNum (e2 :: t) ++ ']' :: rest))]
      simp [dropWs_not_ws ','
          (renderEntriesW fixNaN fixNum (e2 :: t) ++ ']' :: rest) (by decide),
        ih (List.cons_ne_nil e2 t) htl (fun e3 h3 => hl e3 (by simp [h3])) m
          (by simpa using hn) rest]

theorem parseVal_ralt (g : Nat) (es : List RawEntry) (hes : es.all entryWF = true)
    (hlen1 : es.length ≤ g + 2) (hlen2 : ∀ e ∈ es, e.length ≤ g + 1)
    (rest : List Char) :
    parseVal (g + 3) ('[' :: (renderEntriesW fixNaN fixNum es ++ ']' :: rest))
      = some (.arr (es.map interpEntry), rest) := by
  cases es with
  | nil =>
    simp only [renderEntriesW, List.nil_append, List.map_nil]
    exact parseVal_empty_arr (g + 2) rest
  | cons e tl =>
    have hhead : ∃ t1, renderEntriesW fixNaN fixNum (e :: tl) ++ ']' :: rest
        = '\x7b' :: t1 := by
      cases tl with
      | nil =>
        exact ⟨renderMembersW fixNaN fixNum e ++ '\x7d' :: ']' :: rest,
          by simp [renderEntriesW, renderEntryW]⟩
      | cons e2 t =>
        exact ⟨renderMembersW fixNaN fixNum e ++ '\x7d' ::
            ',' :: (renderEntriesW fixNaN fixNum (e2 :: t) ++ ']' :: rest),
          by simp [renderEntriesW, renderEntryW]⟩
    obtain ⟨t1, ht1⟩ := hhead
    have hitems := itemsGo_render g (e :: tl) (List.cons_ne_nil e tl) hes hlen2
      (g + 2) hlen1 rest
    have hitems2 := ht1 ▸ hitems
    rw [ht1]
    have hg : g + 3 = g + 2 + 1 := rfl
    rw [hg, parseVal_arr_arm (g + 2) t1, hitems2]
    rfl

theorem membersGo_alt (pv : List Char → Option (PyJson × List Char)) (n : Nat)
    (rest0 : List Char) (v : PyJson) (r2 : List Char)
    (hpv : pv rest0 = some (v, '\x7d' :: r2)) :
    membersGo pv (n + 1) ('"' :: (chars "alt" ++ '"' :: ':' :: rest0))
      = some ([(chars "alt", v)], r2) := by
  simp only [membersGo]
  rw [dropWs_not_ws '"' _ (by decide)]
  simp [strBody_render (chars "alt") (by decide) (':' :: rest0),
    dropWs_not_ws ':' rest0 (by decide), hpv,
    dropWs_not_ws '\x7d' r2 (by decide)]

theorem parseVal_ralt_top (g : Nat) (es : List RawEntry)
    (hes : es.all entryWF = true) (hlen1 : es.length ≤ g + 2)
    (hlen2 : ∀ e ∈ es, e.length ≤ g + 1) :
    parseVal (g + 4) (renderResultW fixNaN fixNum (.ralt es))
      = some (interpResult (.ralt es), []) := by
  have harr : parseVal (g + 3)
      ('[' :: (renderEntriesW fixNaN fixNum es ++ ']' :: ['\x7d']))
      = some (.arr (es.map interpEntry), ['\x7d']) :=
    parseVal_ralt g es hes hlen1 hlen2 ['\x7d']
  have hg : g + 4 = g + 3 + 1 := rfl
  show parseVal (g + 4) ('\x7b' :: ('"' :: (chars "alt" ++ '"' :: ':' ::
      ('[' :: (renderEntriesW fixNaN fixNum es ++ ']' :: ['\x7d'])))))
    = some (interpResult (.ralt es), [])
  rw [hg, parseVal_obj_arm (g + 3) _]
  have hm : g + 3 = g + 2 + 1 := rfl
  rw [hm, membersGo_alt (parseVal (g + 2 + 1)) (g + 2)
    ('[' :: (renderEntriesW fixNaN fixNum es ++ ']' :: ['\x7d']))
    (.arr (es.map interpEntry)) [] (by rw [← hm]; exact harr)]
  simp [setKey, interpResult]

theorem json_loads_fixNaN_render (r : RawResult) (h : resultWF r = true) :
    json_loads (fixNaN (renderResult r)) = some (interpResult r) := by
  rw [fixNaN_render r h]
  cases r with
  | rerror msg =>
    have hmsg : msg.all strCharOK = true := h
    have hE : entryWF [(chars "error", RawField.fstr msg)] = true := by
      have h1 : (chars "error").all strCharOK = true := by decide
      have h2 : keyNodup [fixNaN (chars "error")] = true := by decide
      simp [entryWF, fieldWF, h1, h2, hmsg]
    have hlen3 : 3 ≤ (renderEntryW fixNaN fixNum
        [(chars "error", RawField.fstr msg)]).length := by
      rw [renderEntryW_length]
      have := renderMembersW_length fixNaN fixNum
        [(chars "error", RawField.fstr msg)]
      simp only [List.length_cons, List.length_nil] at this
      omega
    obtain ⟨f, hf⟩ : ∃ f, (renderEntryW fixNaN fixNum
        [(chars "error", RawField.fstr msg)]).length + 1 = f + 2 :=
      ⟨(renderEntryW fixNaN fixNum [(chars "error", RawField.fstr msg)]).length - 1,
        by omega⟩
    have hp : parseVal ((renderEntryW fixNaN fixNum
          [(chars "error", RawField.fstr msg)]).length + 1)
        (renderEntryW fixNaN fixNum [(chars "error", RawField.fstr msg)])
        = some (interpEntry [(chars "error", RawField.fstr msg)], []) := by
      rw [hf]
      conv_lhs => rw [show renderEntryW fixNaN fixNum
          [(chars "error", RawField.fstr msg)]
        = renderEntryW fixNaN fixNum [(chars "error", RawField.fstr msg)] ++ []
        from (List.append_nil _).symm]
      exact parseVal_entry f [(chars "error", RawField.fstr msg)] hE
        (by simp) []
    have hfix : fixNaN (chars "error") = chars "error" := by decide
    show json_loads (renderEntryW fixNaN fixNum
      [(chars "error", RawField.fstr msg)]) = _
    simp [json_loads, hp, dropWs, interpEntry, interpField, interpResult, hfix]
  | ralt es =>
    have hes : es.all entryWF = true := h
    have halt : (chars "alt").length = 3 := rfl
    have hslen : (renderResultW fixNaN fixNum (.ralt es)).length
        = (renderEntriesW fixNaN fixNum es).length + 10 := by
      simp only [renderResultW, List.length_cons, List.length_append,
        List.length_nil, halt]
      omega
    have hb := renderEntriesW_length fixNaN fixNum es
    have hp : parseVal ((renderResultW fixNaN fixNum (.ralt es)).length + 1)
        (renderResultW fixNaN fixNum (.ralt es))
        = some (interpResult (.ralt es), []) := by
      rw [show (renderResultW fixNaN fixNum (.ralt es)).length + 1
        = ((renderEntriesW fixNaN fixNum es).length + 7) + 4 from by omega]
      exact parseVal_ralt_top ((renderEntriesW fixNaN fixNum es).length + 7) es
        hes (by omega) (fun e he => by have := hb.2 e he; omega)
    simp [json_loads, hp, dropWs]

/-! ### The claims -/

/-- C5: the optimizer's search problem is 5-dimensional with one
objective and no constraints, and its per-dimension bounds are exactly
speech_min_freq in [50, 450], speech_max_freq in [500, 2500],
long_term_speech_avg_sec in [2.1, 500], short_term_speech_avg_sec in
[0.01, 2.0] and speech_threshold_factor in [1, 200]; the pairing of a
dimension with a parameter name is the column mapping of `rowToConf`. -/
theorem claim_C5 :
    FScoreProblem.n_var = 5 ∧ FScoreProblem.n_obj = 1 ∧ FScoreProblem.n_constr = 0 ∧
    FScoreProblem.xl.length = FScoreProblem.n_var ∧
    FScoreProblem.xu.length = FScoreProblem.n_var ∧
    FScoreProblem.xl = [50, 500, 21/10, 1/100, 1] ∧
    FScoreProblem.xu = [450, 2500, 500, 2, 200] ∧
    (∀ a b c d e : PyFloat, rowToConf [a, b, c, d, e] = some (.obj [
      (chars "speech_min_freq", .num a),
      (chars "speech_max_freq", .num b),
      (chars "long_term_speech_avg_sec", .num c),
      (chars "short_term_speech_avg_sec", .num d),
      (chars "speech_threshold_factor", .num e)])) := by
  refine ⟨rfl, rfl, rfl, rfl, rfl, by norm_num [FScoreProblem.xl], by norm_num [FScoreProblem.xu], ?_⟩
  intro a b c d e
  rfl

/-- C3: for every loaded plan that carries the config path, the debug
entry point issues exactly one simulator call, and the config of that
call holds as alt_vad_machine_configs exactly the three alternates with
speech_max_freq 1000, 1500 and 2000, in that order. -/
theorem claim_C3 (plan config : PyJson) (sim : PyJson → List Char)
    (h : setAltConfigs plan debugAltConfigs = some config) :
    (data_demo plan sim).1 = [config] ∧
    getAltConfigs config = some (.arr [
      .obj [(chars "speech_max_freq", .num (.val 1000))],
      .obj [(chars "speech_max_freq", .num (.val 1500))],
      .obj [(chars "speech_max_freq", .num (.val 2000))]]) := by
  constructor
  · simp only [data_demo, h]
    cases hp : json_loads (sim config) with
    | none => rfl
    | some data =>
      by_cases he : data.hasKey (chars "error")
      · simp [he]
      · simp only [he, if_false, Bool.false_eq_true]
        cases extractFScores data <;> rfl
  · exact getAlt_setAlt plan debugAltConfigs config h

/-- Witness for C3 at the spec's sample plan. -/
theorem claim_C3_witness :
    (data_demo samplePlan sampleSim3).1 = [sampleDebugConfig] ∧
    getAltConfigs sampleDebugConfig = some (.arr [
      .obj [(chars "speech_max_freq", .num (.val 1000))],
      .obj [(chars "speech_max_freq", .num (.val 1500))],
      .obj [(chars "speech_max_freq", .num (.val 2000))]]) :=
  claim_C3 samplePlan sampleDebugConfig sampleSim3 rfl

/-- C2: a simulator result whose parsed JSON object contains the key
`error` makes the debug entry point terminate through `exit(1)` (exit
code 1) and makes the optimizer's evaluation raise ValueError, not
return losses. -/
theorem claim_C2 (plan config pconfig data ddata : PyJson)
    (sim : PyJson → List Char) (x : List (List PyFloat)) (confs : List PyJson) :
    (setAltConfigs plan debugAltConfigs = some config →
     json_loads (sim config) = some ddata →
     ddata.hasKey (chars "error") = true →
     (data_demo plan sim).2 = .exitOne ∧ (data_demo plan sim).2.exitCode = 1) ∧
    (mapO rowToConf x = some confs →
     setAltConfigs plan (.arr confs) = some pconfig →
     json_loads (fixNaN (sim pconfig)) = some data →
     data.hasKey (chars "error") = true →
     (evaluateF plan x sim).2 = .valueError) := by
  constructor
  · intro hset hparse herr
    simp [data_demo, hset, hparse, herr, DebugOutcome.exitCode]
  · intro hrows hset hparse herr
    simp [evaluateF, hrows, hset, hparse, herr]

/-- Witness for C2 with the stub `error` simulator. -/
theorem claim_C2_witness :
    ((data_demo samplePlan sampleSimErr).2 = .exitOne ∧
      (data_demo samplePlan sampleSimErr).2.exitCode = 1) ∧
    (evaluateF samplePlan sampleBatch sampleSimErr).2 = .valueError := by
  have h := claim_C2 samplePlan sampleDebugConfig sampleOptConfig
    (.obj [(chars "error", .str (chars "boom"))])
    (.obj [(chars "error", .str (chars "boom"))])
    sampleSimErr sampleBatch [sampleConf]
  exact ⟨h.1 rfl rfl rfl, h.2 rfl rfl rfl rfl⟩

/-- C8: in both entry points, every config passed to the simulator
differs from the loaded plan only at
`config.vad_config.alt_vad_machine_configs`; all other keys, at each
level, are preserved. -/
theorem claim_C8 (plan : PyJson) (sim : PyJson → List Char) (x : List (List PyFloat)) :
    (∀ config ∈ (data_demo plan sim).1, framePreserved plan config) ∧
    (∀ config ∈ (evaluateF plan x sim).1, framePreserved plan config) := by
  constructor
  · intro config hc
    cases hset : setAltConfigs plan debugAltConfigs with
    | none =>
      have hnil : (data_demo plan sim).1 = [] := by simp [data_demo, hset]
      rw [hnil] at hc
      simp at hc
    | some c0 =>
      rw [data_demo_calls plan c0 sim hset] at hc
      simp only [List.mem_singleton] at hc
      subst hc
      exact framePreserved_setAlt plan debugAltConfigs config hset
  · intro config hc
    cases hrows : mapO rowToConf x with
    | none =>
      have hnil : (evaluateF plan x sim).1 = [] := by simp [evaluateF, hrows]
      rw [hnil] at hc
      simp at hc
    | some confs =>
      cases hset : setAltConfigs plan (.arr confs) with
      | none =>
        have hnil : (evaluateF plan x sim).1 = [] := by simp [evaluateF, hrows, hset]
        rw [hnil] at hc
        simp at hc
      | some c0 =>
        rw [evaluateF_calls plan c0 x confs sim hrows hset] at hc
        simp only [List.mem_singleton] at hc
        subst hc
        exact framePreserved_setAlt plan (.arr confs) config hset

/-- C4: a result without `error` whose `alt` holds N objects each
carrying an f_score makes the debug entry point print exactly those N
values, in the order of the `alt` entries, and finish with exit code 0.
-/
theorem claim_C4 (plan config data : PyJson) (sim : PyJson → List Char)
    (ds fs : List PyJson)
    (hset : setAltConfigs plan debugAltConfigs = some config)
    (hparse : json_loads (sim config) = some data)
    (herr : data.hasKey (chars "error") = false)
    (halt : data.get (chars "alt") = some (.arr ds))
    (hfs : mapO (fun d => d.get (chars "f_score")) ds = some fs) :
    (data_demo plan sim).2 = .printed fs ∧
    (data_demo plan sim).2.exitCode = 0 ∧
    fs.length = ds.length ∧
    (∀ i : Nat, fs[i]? = (ds[i]?).bind fun d => d.get (chars "f_score")) := by
  obtain ⟨hlen, hget⟩ := mapO_getElem _ ds fs hfs
  have hext : extractFScores data = some fs := by
    simp [extractFScores, halt, PyJson.iter, hfs]
  have hout : (data_demo plan sim).2 = .printed fs := by
    simp [data_demo, hset, hparse, herr, hext]
  exact ⟨hout, by rw [hout]; rfl, hlen, hget⟩

set_option maxRecDepth 8192 in
/-- Witness for C4 at the spec's printed scenario: scores 0.5, 0.8, 0.2
come back in order and the run exits 0. -/
theorem claim_C4_witness :
    (data_demo samplePlan sampleSim3).2
        = .printed [.num (.val (mkRat 1 2)), .num (.val (mkRat 4 5)), .num (.val (mkRat 1 5))] ∧
    (data_demo samplePlan sampleSim3).2.exitCode = 0 ∧
    ([(.num (.val (mkRat 1 2)) : PyJson), .num (.val (mkRat 4 5)), .num (.val (mkRat 1 5))]).length
        = ([(.obj [(chars "f_score", .num (.val (mkRat 1 2)))] : PyJson),
            .obj [(chars "f_score", .num (.val (mkRat 4 5)))],
            .obj [(chars "f_score", .num (.val (mkRat 1 5)))]]).length ∧
    (∀ i : Nat,
      ([(.num (.val (mkRat 1 2)) : PyJson), .num (.val (mkRat 4 5)), .num (.val (mkRat 1 5))])[i]?
        = (([(.obj [(chars "f_score", .num (.val (mkRat 1 2)))] : PyJson),
            .obj [(chars "f_score", .num (.val (mkRat 4 5)))],
            .obj [(chars "f_score", .num (.val (mkRat 1 5)))]])[i]?).bind
            fun d => d.get (chars "f_score")) :=
  claim_C4 samplePlan sampleDebugConfig sampleData3 sampleSim3
    [.obj [(chars "f_score", .num (.val (mkRat 1 2)))],
     .obj [(chars "f_score", .num (.val (mkRat 4 5)))],
     .obj [(chars "f_score", .num (.val (mkRat 1 5)))]]
    [.num (.val (mkRat 1 2)), .num (.val (mkRat 4 5)), .num (.val (mkRat 1 5))]
    rfl
    (optPyBeq_eq 32 (json_loads (sampleSim3 sampleDebugConfig)) (some sampleData3) (by decide))
    rfl rfl rfl

/-- C6: the evaluation issues exactly one simulator call for the whole
batch, after building one VAD config per row that maps columns 0-4 to
speech_min_freq, speech_max_freq, long_term_speech_avg_sec,
short_term_speech_avg_sec and speech_threshold_factor, and injecting
the list as alt_vad_machine_configs. -/
theorem claim_C6 (plan pconfig : PyJson) (x : List (List PyFloat)) (confs : List PyJson)
    (sim : PyJson → List Char)
    (hrows : mapO rowToConf x = some confs)
    (hset : setAltConfigs plan (.arr confs) = some pconfig) :
    (evaluateF plan x sim).1 = [pconfig] ∧
    getAltConfigs pconfig = some (.arr confs) ∧
    confs.length = x.length ∧
    (∀ i : Nat, confs[i]? = (x[i]?).bind rowToConf) ∧
    (∀ a b c d e : PyFloat, ∀ rest : List PyFloat,
      rowToConf (a :: b :: c :: d :: e :: rest) = some (.obj [
        (chars "speech_min_freq", .num a),
        (chars "speech_max_freq", .num b),
        (chars "long_term_speech_avg_sec", .num c),
        (chars "short_term_speech_avg_sec", .num d),
        (chars "speech_threshold_factor", .num e)])) := by
  obtain ⟨hlen, hget⟩ := mapO_getElem _ x confs hrows
  exact ⟨evaluateF_calls plan pconfig x confs sim hrows hset,
    getAlt_setAlt plan (.arr confs) pconfig hset, hlen, hget,
    fun a b c d e rest => rfl⟩

/-- Witness for C6 at the one-row sample batch. -/
theorem claim_C6_witness :
    (evaluateF samplePlan sampleBatch sampleSim3).1 = [sampleOptConfig] ∧
    getAltConfigs sampleOptConfig = some (.arr [sampleConf]) ∧
    ([sampleConf]).length = sampleBatch.length ∧
    (∀ i : Nat, ([sampleConf])[i]? = (sampleBatch[i]?).bind rowToConf) ∧
    (∀ a b c d e : PyFloat, ∀ rest : List PyFloat,
      rowToConf (a :: b :: c :: d :: e :: rest) = some (.obj [
        (chars "speech_min_freq", .num a),
        (chars "speech_max_freq", .num b),
        (chars "long_term_speech_avg_sec", .num c),
        (chars "short_term_speech_avg_sec", .num d),
        (chars "speech_threshold_factor", .num e)])) :=
  claim_C6 samplePlan sampleOptConfig sampleBatch [sampleConf] sampleSim3 rfl rfl

/-- C9: a NaN f_score propagates to a NaN loss: the evaluation still
returns losses (NaN is neither replaced by the worst-case 1.0 nor
treated as an error). -/
theorem claim_C9 (plan pconfig data : PyJson) (x : List (List PyFloat))
    (confs : List PyJson) (sim : PyJson → List Char)
    (ds : List PyJson) (fs : List PyFloat)
    (hrows : mapO rowToConf x = some confs)
    (hset : setAltConfigs plan (.arr confs) = some pconfig)
    (hparse : json_loads (fixNaN (sim pconfig)) = some data)
    (herr : data.hasKey (chars "error") = false)
    (halt : data.get (chars "alt") = some (.arr ds))
    (hfs : mapO (fun d => d.get (chars "f_score")) ds = some (fs.map PyJson.num)) :
    (evaluateF plan x sim).2 = .losses (fs.map lossOf) ∧
    (∀ i : Nat, fs[i]? = some .nan → (fs.map lossOf)[i]? = some .nan) ∧
    PyFloat.nan ≠ PyFloat.val 1 := by
  have hext : extractFScores data = some (fs.map PyJson.num) := by
    simp [extractFScores, halt, PyJson.iter, hfs]
  have hloss : lossesOf data = some (fs.map lossOf) := by
    simp [lossesOf, hext, mapO_scoreToFloat_num]
  refine ⟨by simp [evaluateF, hrows, hset, hparse, herr, hloss], ?_, by simp⟩
  intro i hi
  rw [List.getElem?_map, hi]
  rfl

set_option maxRecDepth 8192 in
/-- Witness for C9: the stub with a malformed `nan` first score yields a
NaN loss in first position. -/
theorem claim_C9_witness :
    (evaluateF samplePlan sampleBatch sampleSimNaN).2
        = .losses ([PyFloat.nan, .val (mkRat 1 2)].map lossOf) ∧
    (∀ i : Nat, ([PyFloat.nan, .val (mkRat 1 2)])[i]? = some .nan →
      (([PyFloat.nan, .val (mkRat 1 2)]).map lossOf)[i]? = some .nan) ∧
    PyFloat.nan ≠ PyFloat.val 1 :=
  claim_C9 samplePlan sampleOptConfig
    (.obj [(chars "alt", .arr [
      .obj [(chars "f_score", .num .nan)],
      .obj [(chars "f_score", .num (.val (mkRat 1 2)))]])])
    sampleBatch [sampleConf] sampleSimNaN
    [.obj [(chars "f_score", .num .nan)],
     .obj [(chars "f_score", .num (.val (mkRat 1 2)))]]
    [.nan, .val (mkRat 1 2)]
    rfl rfl
    (optPyBeq_eq 32 (json_loads (fixNaN (sampleSimNaN sampleOptConfig)))
      (some (.obj [(chars "alt", .arr [
        .obj [(chars "f_score", .num .nan)],
        .obj [(chars "f_score", .num (.val (mkRat 1 2)))]])])) (by decide))
    rfl rfl rfl

/-- C1: for a result carrying an `alt` list, the reported loss per
candidate is `1.0 - f_score`, in the candidates' input order; on
f_scores in [0, 1] this loss is monotonically decreasing as the f_score
increases. -/
theorem claim_C1 (plan pconfig data : PyJson) (x : List (List PyFloat))
    (confs : List PyJson) (sim : PyJson → List Char)
    (ds : List PyJson) (fs : List PyFloat)
    (hrows : mapO rowToConf x = some confs)
    (hset : setAltConfigs plan (.arr confs) = some pconfig)
    (hparse : json_loads (fixNaN (sim pconfig)) = some data)
    (herr : data.hasKey (chars "error") = false)
    (halt : data.get (chars "alt") = some (.arr ds))
    (hfs : mapO (fun d => d.get (chars "f_score")) ds = some (fs.map PyJson.num)) :
    (evaluateF plan x sim).2 = .losses (fs.map lossOf) ∧
    (fs.map lossOf).length = fs.length ∧
    (∀ i : Nat, (fs.map lossOf)[i]? = (fs[i]?).map lossOf) ∧
    (∀ a : ℚ, lossOf (.val a) = .val (1 - a)) ∧
    (∀ a b : ℚ, 0 ≤ a → a ≤ b → b ≤ 1 → 1 - b ≤ 1 - a) := by
  have hext : extractFScores data = some (fs.map PyJson.num) := by
    simp [extractFScores, halt, PyJson.iter, hfs]
  have hloss : lossesOf data = some (fs.map lossOf) := by
    simp [lossesOf, hext, mapO_scoreToFloat_num]
  refine ⟨by simp [evaluateF, hrows, hset, hparse, herr, hloss],
    by simp, fun i => List.getElem?_map ..,
    fun a => rfl, fun a b h1 h2 h3 => by linarith⟩

set_option maxRecDepth 8192 in
/-- Witness for C1 at the stub returning 0.5, 0.8, 0.2: losses are 0.5,
0.2, 0.8 in that order. -/
theorem claim_C1_witness :
    (evaluateF samplePlan sampleBatch sampleSim3).2
        = .losses ([PyFloat.val (mkRat 1 2), .val (mkRat 4 5), .val (mkRat 1 5)].map lossOf) ∧
    (([PyFloat.val (mkRat 1 2), .val (mkRat 4 5), .val (mkRat 1 5)]).map lossOf).length
        = ([PyFloat.val (mkRat 1 2), .val (mkRat 4 5), .val (mkRat 1 5)]).length ∧
    (∀ i : Nat, (([PyFloat.val (mkRat 1 2), .val (mkRat 4 5), .val (mkRat 1 5)]).map lossOf)[i]?
        = (([PyFloat.val (mkRat 1 2), .val (mkRat 4 5), .val (mkRat 1 5)])[i]?).map lossOf) ∧
    (∀ a : ℚ, lossOf (.val a) = .val (1 - a)) ∧
    (∀ a b : ℚ, 0 ≤ a → a ≤ b → b ≤ 1 → 1 - b ≤ 1 - a) :=
  claim_C1 samplePlan sampleOptConfig sampleData3 sampleBatch [sampleConf] sampleSim3
    [.obj [(chars "f_score", .num (.val (mkRat 1 2)))],
     .obj [(chars "f_score", .num (.val (mkRat 4 5)))],
     .obj [(chars "f_score", .num (.val (mkRat 1 5)))]]
    [.val (mkRat 1 2), .val (mkRat 4 5), .val (mkRat 1 5)]
    rfl rfl
    (optPyBeq_eq 32 (json_loads (fixNaN (sampleSim3 sampleOptConfig)))
      (some sampleData3) (by decide))
    rfl rfl rfl

/-- C10: the NaN fix is a blind whole-text substitution: first every
`-nan`, then every remaining `nan`, becomes `NaN` regardless of
context, so on some result texts it rewrites characters inside a JSON
string value (here `"banana"` becomes `"baNaNa"`). -/
theorem claim_C10 :
    (∀ s : List Char, fixNaN s
      = replaceL (chars "nan") (chars "NaN") (replaceL (chars "-nan") (chars "NaN") s)) ∧
    fixNaN (chars "nan -nan nanan") = chars "NaN NaN NaNan" ∧
    json_loads (chars "\x7b\"a\":\"banana\"\x7d")
      = some (.obj [(chars "a", .str (chars "banana"))]) ∧
    fixNaN (chars "\x7b\"a\":\"banana\"\x7d") = chars "\x7b\"a\":\"baNaNa\"\x7d" ∧
    json_loads (fixNaN (chars "\x7b\"a\":\"banana\"\x7d"))
      = some (.obj [(chars "a", .str (chars "baNaNa"))]) ∧
    chars "banana" ≠ chars "baNaNa" := by
  exact ⟨fun s => rfl, rfl, rfl, rfl, rfl, by decide⟩


/-- C7: for every raw simulator result text (an error object or an `alt`
list of score entries, possibly with literal `nan` / `-nan` tokens in
number position), the normalization step rewrites those tokens so that
`json.loads` succeeds and returns the parsed value; wherever a `nan` or
`-nan` token stood, the parsed object holds the not-a-number float; and
without the normalization a text with a literal `nan` token is a parse
failure. -/
theorem claim_C7 (r : RawResult) (h : resultWF r = true) :
    json_loads (fixNaN (renderResult r)) = some (interpResult r) ∧
    (∀ entries, r = .ralt entries → ∀ e ∈ entries, ∀ k : List Char,
      ((k, RawField.fnum .rnan) ∈ e ∨ (k, RawField.fnum .rnegnan) ∈ e) →
      (interpEntry e).get (fixNaN k) = some (.num .nan)) ∧
    json_loads (chars "\x7b\"alt\":[\x7b\"f_score\":nan\x7d]\x7d") = none := by
  refine ⟨json_loads_fixNaN_render r h, ?_, ?_⟩
  · rintro entries rfl e he k hk
    have hall : entryWF e = true := by
      have h2 : entries.all entryWF = true := h
      rw [List.all_eq_true] at h2
      exact h2 e he
    have hn := entry_keys_nodup e hall
    rcases hk with hk | hk
    · exact lookup_of_nodup (e.map fun kv => (fixNaN kv.1, interpField kv.2))
        (fixNaN k) (.num .nan) hn (List.mem_map_of_mem _ hk)
    · exact lookup_of_nodup (e.map fun kv => (fixNaN kv.1, interpField kv.2))
        (fixNaN k) (.num .nan) hn (List.mem_map_of_mem _ hk)
  · exact optPyBeq_eq 32
      (json_loads (chars "\x7b\"alt\":[\x7b\"f_score\":nan\x7d]\x7d")) none
      (by decide)

/-- Concrete instance of C7: a two-entry `alt` result whose first entry
carries a literal `nan` f_score is well formed, and its normalized text
parses to the interpreted object. -/
theorem claim_C7_witness :
    resultWF (RawResult.ralt [[(chars "f_score", RawField.fnum .rnan)],
      [(chars "f_score", RawField.fnum (.rdec false ['0'] ['.', '5'] []))]]) = true ∧
    json_loads (fixNaN (renderResult
        (RawResult.ralt [[(chars "f_score", RawField.fnum .rnan)],
          [(chars "f_score", RawField.fnum (.rdec false ['0'] ['.', '5'] []))]])))
      = some (interpResult
        (RawResult.ralt [[(chars "f_score", RawField.fnum .rnan)],
          [(chars "f_score", RawField.fnum (.rdec false ['0'] ['.', '5'] []))]])) :=
  ⟨by decide,
    (claim_C7 (RawResult.ralt [[(chars "f_score", RawField.fnum .rnan)],
        [(chars "f_score", RawField.fnum (.rdec false ['0'] ['.', '5'] []))]])
      (by decide)).1⟩

end FormulaVAD
